import Mathlib

/-!
# Verification of the mdToPdf pagination engine

This file gives a shallow embedding of the pagination engine of
`src/script.js` (the block packer `paginateContent`, the block splitter
`splitElementBeforeFirstImage`, the blank-page filter, the page renderer
and the TOC page-number resolver `updateTOCPageNumbers`) and proves or
refutes the specified properties about it.

Modelling conventions:
* DOM nodes are modelled by the inductive `HNode`: an element with a tag
  name (stored lowercase), a class list, an id attribute and a child list,
  or a text node.  `outerHTML`-level string manipulation in the source is
  modelled structurally on these trees.
* The measurement oracle (`getUsedHeightPx` reading the live layout) is an
  external collaborator; it is modelled as a function from the current
  content of the measuring page (a block list) to a natural-number height.
  Where a claim needs a concrete box model, the oracle is instantiated
  with the sum of per-block heights.
* Pixel quantities are natural numbers; only order comparisons matter.
-/

namespace MdToPdf

/-- A DOM node: an element (tag, class list, id attribute, children) or a
text node.  Tags are stored lowercase. -/
inductive HNode where
  | elem (tag : String) (classes : List String) (idAttr : String)
      (children : List HNode) : HNode
  | text (s : String) : HNode
deriving Repr

namespace HNode

mutual
/-- Boolean equality on nodes (structural). -/
def beq : HNode → HNode → Bool
  | .text s, .text t => s == t
  | .elem t1 c1 i1 cs1, .elem t2 c2 i2 cs2 =>
      t1 == t2 && c1 == c2 && i1 == i2 && beqList cs1 cs2
  | _, _ => false
/-- Boolean equality on node lists. -/
def beqList : List HNode → List HNode → Bool
  | [], [] => true
  | a :: as, b :: bs => beq a b && beqList as bs
  | _, _ => false
end

mutual
theorem beq_iff_eq : ∀ a b : HNode, beq a b = true ↔ a = b
  | .text s, .text t => by simp [beq]
  | .text _, .elem _ _ _ _ => by simp [beq]
  | .elem _ _ _ _, .text _ => by simp [beq]
  | .elem t1 c1 i1 cs1, .elem t2 c2 i2 cs2 => by
      simp [beq, beqList_iff_eq cs1 cs2, Bool.and_assoc, and_assoc]
theorem beqList_iff_eq : ∀ as bs : List HNode, beqList as bs = true ↔ as = bs
  | [], [] => by simp [beqList]
  | [], _ :: _ => by simp [beqList]
  | _ :: _, [] => by simp [beqList]
  | a :: as, b :: bs => by
      simp [beqList, beq_iff_eq a b, beqList_iff_eq as bs]
end

instance : DecidableEq HNode := fun a b =>
  decidable_of_iff (beq a b = true) (beq_iff_eq a b)

mutual
/-- `textContent` of a node: concatenation of all descendant text. -/
def textContent : HNode → String
  | .text s => s
  | .elem _ _ _ cs => textContentList cs
/-- `textContent` concatenated over a node list. -/
def textContentList : List HNode → String
  | [] => ""
  | c :: cs => textContent c ++ textContentList cs
end
end HNode

/-- Removal of every whitespace character, as in the source's
uses of `replace(/\s+/g, "")`. -/
def stripWs (s : String) : String :=
  ⟨s.data.filter (fun c => !c.isWhitespace)⟩

mutual
/-- Whether a node's subtree (the node itself included) contains an element
with one of the given tags.  Used to model `querySelector` existence
queries, which search among descendants of the queried node. -/
def subtreeHasTag (tags : List String) : HNode → Bool
  | .text _ => false
  | .elem t _ _ cs => tags.contains t || subtreeHasTagList tags cs
/-- `subtreeHasTag` over a node list. -/
def subtreeHasTagList (tags : List String) : List HNode → Bool
  | [] => false
  | c :: cs => subtreeHasTag tags c || subtreeHasTagList tags cs
end

/-- The content tags of `isEffectivelyEmptyBlock`
(`img, table, pre, blockquote, ul, ol, hr`, script.js:1223). -/
def contentTags : List String :=
  ["img", "table", "pre", "blockquote", "ul", "ol", "hr"]

/-- `isEffectivelyEmptyBlock` (script.js:1219-1237): a block is effectively
empty when `querySelector` finds no content element among its descendants
and its text content is blank after whitespace removal.  (The source's
trailing checks on element-free and br-only blocks all return `true`, so
that branch collapses to `true`.) -/
def isEffectivelyEmptyBlock (n : HNode) : Bool :=
  match n with
  | .text s => stripWs s == ""
  | .elem _ _ _ cs =>
      !(subtreeHasTagList contentTags cs) && stripWs (HNode.textContentList cs) == ""

/-- `isHeading` (script.js:1296-1298): the tag matches `/^H[1-6]$/i`. -/
def isHeading (n : HNode) : Bool :=
  match n with
  | .text _ => false
  | .elem t _ _ _ => ["h1", "h2", "h3", "h4", "h5", "h6"].contains t

/-- A manual page-break marker: `element.classList.contains("page-break")`
(script.js:1329). -/
def isPageBreak (n : HNode) : Bool :=
  match n with
  | .text _ => false
  | .elem _ classes _ _ => classes.contains "page-break"

/-- A `<br>` element, as recognised by `trimLeadingBrOnPageStart`. -/
def isBrElem (n : HNode) : Bool :=
  match n with
  | .text _ => false
  | .elem t _ _ _ => t == "br"

/-- A whitespace-only text node (`!String(first.textContent||"").trim()`). -/
def isWsText (n : HNode) : Bool :=
  match n with
  | .text s => stripWs s == ""
  | .elem _ _ _ _ => false

/-- `trimLeadingBrOnPageStart` (script.js:1239-1262): on a non-heading
block with children, remove the leading run of `<br>` elements and
whitespace-only text nodes.  The source mutates a clone; here a new node
is returned. -/
def trimLeadingBrOnPageStart (n : HNode) : HNode :=
  match n with
  | .text s => .text s
  | .elem t cl id cs =>
      if cs.isEmpty then .elem t cl id cs
      else if isHeading (.elem t cl id cs) then .elem t cl id cs
      else .elem t cl id (cs.dropWhile (fun c => isBrElem c || isWsText c))

/-- Whether a node's subtree (itself included) contains an `img` element. -/
def containsImg (n : HNode) : Bool :=
  subtreeHasTag ["img"] n

/-- The before half of a split: a shallow clone of the container holding
the direct children strictly before index `k` (script.js:1280-1287). -/
def beforePart (t : String) (cl : List String) (id : String)
    (cs : List HNode) (k : Nat) : HNode :=
  .elem t cl id (cs.take k)

/-- The after half of a split: a shallow clone of the container holding
the direct children from index `k` onward (script.js:1280-1287). -/
def afterPart (t : String) (cl : List String) (id : String)
    (cs : List HNode) (k : Nat) : HNode :=
  .elem t cl id (cs.drop k)

/-- `splitElementBeforeFirstImage` (script.js:1264-1293).  The source
locates `el.querySelector("img")` (the first image in document order) and
walks its `parentElement` chain up to the direct child of `el` that
contains it; that child is the first direct child whose subtree contains
an image, and its `indexOf` position is the index of that first such
child, which is how the split index is computed here.  A split index of
`0` is rejected (`splitIndex <= 0`); otherwise the children are divided
into shallow clones `before`/`after`, an effectively empty half is
dropped, and the call succeeds only when two halves remain. -/
def splitElementBeforeFirstImage (el : HNode) : Option (List HNode) :=
  match el with
  | .text _ => none
  | .elem t cl id cs =>
      if !(cs.any containsImg) then none
      else
        let splitIndex := cs.findIdx containsImg
        if splitIndex == 0 then none
        else
          let before := beforePart t cl id cs splitIndex
          let after := afterPart t cl id cs splitIndex
          let parts :=
            (if isEffectivelyEmptyBlock before then [] else [before]) ++
            (if isEffectivelyEmptyBlock after then [] else [after])
          if parts.length ≥ 2 then some parts else none

/-- Weight of a block for the packing loop's termination measure: a
splittable block costs 3 (its split produces two unsplittable parts, see
`splitElementBeforeFirstImage_parts`), any other block costs 1. -/
def blockWeight (b : HNode) : Nat :=
  if (splitElementBeforeFirstImage b).isSome then 3 else 1

/-- Total weight of the remaining input; an upper bound on the number of
iterations of the packing loop. -/
def weightList (l : List HNode) : Nat :=
  (l.map blockWeight).sum

/-- `pages.push(currentPageHTML.join(""))` guarded by
`currentPageHTML.length` (script.js:1330-1332, 1372-1374, 1428-1430,
1438-1440, 1449): append the buffer as a completed page only when it is
non-empty. -/
def flushPage (pages : List (List HNode)) (buf : List HNode) :
    List (List HNode) :=
  if buf.isEmpty then pages else pages ++ [buf]

/-- Loop state of `paginateContent`: the remaining slice of `elements`,
the current page buffer `currentPageElements` (the measuring page mirrors
it: at the top of every iteration `measurePage` holds exactly the clones
of the buffered blocks), and the completed pages. -/
structure PackState where
  rem : List HNode
  buf : List HNode
  pages : List (List HNode)
deriving Repr, DecidableEq

/-- The block as it enters the page buffer (script.js:1340-1343, 1354):
`isStartingNewPage` holds when the measuring page (equivalently, the
buffer) is empty, and then the clone has its leading breaks trimmed;
otherwise the block is kept as-is. -/
def firstOnPageClone (buf : List HNode) (b : HNode) : HNode :=
  if buf.isEmpty then trimLeadingBrOnPageStart b else b

/-- One iteration of the main packing loop of `paginateContent`
(script.js:1324-1447), on the first remaining block `b`.  The oracle
`measure` abstracts `getUsedHeightPx` applied to the measuring page's
current content, and `maxB` is `maxBottom` (script.js:1208).  The
splice-and-retry of script.js:1395-1397 and 1416-1418 becomes replacing
the head of the remaining input by the split parts. -/
def packStep (measure : List HNode → Nat) (maxB : Nat) (b : HNode)
    (rest buf : List HNode) (pages : List (List HNode)) : PackState :=
  if isPageBreak b then
    -- script.js:1329-1337: flush if non-empty, reset, skip the marker.
    ⟨rest, [], flushPage pages buf⟩
  else if buf.isEmpty && isEffectivelyEmptyBlock (firstOnPageClone buf b) then
    -- script.js:1342-1347: an empty block cannot start a page.
    ⟨rest, buf, pages⟩
  else if measure (buf ++ [firstOnPageClone buf b]) ≤ maxB then
    -- script.js:1352-1386: the block fits.
    match rest with
    | [] => ⟨rest, buf ++ [firstOnPageClone buf b], pages⟩
    | next :: _ =>
      if isHeading b then
        if measure (buf ++ [firstOnPageClone buf b] ++ [next]) ≤ maxB then
          -- script.js:1381-1384: probe fits; retract it and continue.
          ⟨rest, buf ++ [firstOnPageClone buf b], pages⟩
        else
          -- script.js:1365-1380: evict the heading to a new page.
          ⟨rest, [b], flushPage pages buf⟩
      else ⟨rest, buf ++ [firstOnPageClone buf b], pages⟩
  else if buf.isEmpty then
    -- script.js:1391-1404: first element of a page overflowed.
    match splitElementBeforeFirstImage b with
    | some parts => ⟨parts ++ rest, buf, pages⟩
    | none => ⟨rest, buf ++ [firstOnPageClone buf b], pages⟩
  else
    -- script.js:1408-1420: retract, then the second split attempt guarded
    -- by `currentPageHTML.length === 0` (dead here, since the buffer is
    -- non-empty whenever the measuring page held more than the new clone).
    match (if buf.isEmpty then splitElementBeforeFirstImage b else none) with
    | some parts => ⟨parts ++ rest, buf, pages⟩
    | none =>
      -- script.js:1423-1446: move the block to the next page, taking a
      -- trailing heading along with it.
      match buf.getLast? with
      | some hLast =>
        if isHeading hLast then
          ⟨rest, [hLast, b], flushPage pages buf.dropLast⟩
        else ⟨rest, [b], flushPage pages buf⟩
      | none => ⟨rest, [b], flushPage pages buf⟩

/-- The main packing loop (script.js:1324-1449) as a fuel-indexed
recursion: run `packStep` on the head of the remaining input until it is
exhausted, then flush the trailing buffer (script.js:1449).  Fuel
`weightList rem` suffices (termination theorem below); exhausted fuel
conservatively flushes, which the packing entry point never reaches. -/
def packGo (measure : List HNode → Nat) (maxB : Nat) :
    Nat → List HNode → List HNode → List (List HNode) → List (List HNode)
  | 0, _, buf, pages => flushPage pages buf
  | _ + 1, [], buf, pages => flushPage pages buf
  | fuel + 1, b :: rest, buf, pages =>
    match packStep measure maxB b rest buf pages with
    | ⟨rem2, buf2, pages2⟩ => packGo measure maxB fuel rem2 buf2 pages2

/-- The page-packing pass of `paginateContent`: run the loop on the block
sequence with the canonical fuel, then flush the trailing buffer
(script.js:1449 is the post-loop flush, folded into the loop's base
case). -/
def paginatePages (measure : List HNode → Nat) (maxB : Nat)
    (blocks : List HNode) : List (List HNode) :=
  packGo measure maxB (weightList blocks) blocks [] []

/-- `isPageHtmlEffectivelyEmpty` (script.js:1451-1463) applied to the
joined HTML of a page's blocks: every tag is stripped, `&nbsp;` becomes a
space, all whitespace is removed, and the page is empty when nothing
remains.  On the tree model the stripping leaves exactly the text content
of the page's blocks. -/
def isPageHtmlEffectivelyEmpty (page : List HNode) : Bool :=
  stripWs (HNode.textContentList page) == ""

/-- The blank-page guard (script.js:1466-1468): while more than one page
remains and the first is effectively empty, drop the first page. -/
def blankPageFilter : List (List HNode) → List (List HNode)
  | [] => []
  | [p] => [p]
  | p :: q :: rest =>
      if isPageHtmlEffectivelyEmpty p then blankPageFilter (q :: rest)
      else p :: q :: rest

/-- A rendered page: an `a4-page` container with its `data-page` label and
its content blocks (script.js:1478-1484). -/
structure RenderedPage where
  dataPage : String
  blocks : List HNode
deriving Repr, DecidableEq

/-- The rendering step (script.js:1473-1484): an empty page list becomes a
single synthetic empty page labelled `Page 1`; otherwise page `i`
(0-based) is labelled `Page i+1`. -/
def renderPages (pages : List (List HNode)) : List RenderedPage :=
  if pages.isEmpty then [⟨"Page 1", []⟩]
  else pages.enum.map (fun pi => ⟨"Page " ++ toString (pi.1 + 1), pi.2⟩)

/-- The full pagination pipeline of `paginateContent` (script.js:1189-1488,
measurement abstracted): pack, drop leading blank pages, render. -/
def paginateContent (measure : List HNode → Nat) (maxB : Nat)
    (blocks : List HNode) : List RenderedPage :=
  renderPages (blankPageFilter (paginatePages measure maxB blocks))

/-- A TOC entry as `updateTOCPageNumbers` sees it: the link's `href` and
the current text of its `.toc-page` span (the estimate written by
`replaceTOCMarkers`, script.js:1145-1150). -/
structure TocEntry where
  href : String
  pageLabel : String
deriving Repr, DecidableEq

mutual
/-- Whether a node's subtree (itself included) has an element with the
given id, modelling `page.querySelector("#" + id)` on a page container
whose children are the page's blocks. -/
def subtreeHasId (tid : String) : HNode → Bool
  | .text _ => false
  | .elem _ _ id cs => id == tid || subtreeHasIdList tid cs
/-- `subtreeHasId` over a node list. -/
def subtreeHasIdList (tid : String) : List HNode → Bool
  | [] => false
  | c :: cs => subtreeHasId tid c || subtreeHasIdList tid cs
end

/-- Whether a rendered page contains a block whose subtree carries the id. -/
def pageHasId (tid : String) (p : RenderedPage) : Bool :=
  subtreeHasIdList tid p.blocks

/-- `updateTOCPageNumbers` (script.js:1490-1522): for each TOC entry whose
href is an anchor, scan the pages in order for the first one containing
the target id and overwrite the entry's page label with that page's
1-based number; an entry with no match (or a non-anchor href) is left
unchanged.  With no entries or no pages the function returns early,
changing nothing. -/
def updateTOCPageNumbers (entries : List TocEntry)
    (pages : List RenderedPage) : List TocEntry :=
  if entries.isEmpty then entries
  else if pages.isEmpty then entries
  else
    entries.map (fun e =>
      match e.href.data with
      | [] => e
      | c :: tidChars =>
          if c = '#' then
            let tid : String := ⟨tidChars⟩
            match pages.findIdx? (pageHasId tid) with
            | some k => ⟨e.href, toString (k + 1)⟩
            | none => e
          else e)

/-! ## Helper lemmas -/

theorem stripWs_empty : stripWs "" = "" := rfl

theorem stripWs_append (s t : String) :
    stripWs (s ++ t) = stripWs s ++ stripWs t := by
  apply String.ext
  simp [stripWs, String.data_append]

theorem textContentList_append (l1 l2 : List HNode) :
    HNode.textContentList (l1 ++ l2) =
      HNode.textContentList l1 ++ HNode.textContentList l2 := by
  induction l1 with
  | nil => simp [HNode.textContentList]
  | cons c cs ih => simp [HNode.textContentList, ih, String.append_assoc]

theorem textContentList_cons (c : HNode) (cs : List HNode) :
    HNode.textContentList (c :: cs) =
      HNode.textContent c ++ HNode.textContentList cs := rfl

/-- The whitespace-stripped text of a page list, used to state
conservation. -/
def wsTextList (l : List HNode) : String :=
  stripWs (HNode.textContentList l)

theorem wsTextList_append (l1 l2 : List HNode) :
    wsTextList (l1 ++ l2) = wsTextList l1 ++ wsTextList l2 := by
  simp [wsTextList, textContentList_append, stripWs_append]

/-- The whitespace-stripped text of a whole page sequence. -/
def wsTextPages (pages : List (List HNode)) : String :=
  match pages with
  | [] => ""
  | p :: ps => wsTextList p ++ wsTextPages ps

theorem wsTextPages_append (p1 p2 : List (List HNode)) :
    wsTextPages (p1 ++ p2) = wsTextPages p1 ++ wsTextPages p2 := by
  induction p1 with
  | nil => simp [wsTextPages]
  | cons p ps ih => simp [wsTextPages, ih, String.append_assoc]

theorem one_le_blockWeight (b : HNode) : 1 ≤ blockWeight b := by
  unfold blockWeight; split <;> omega

theorem weightList_cons (b : HNode) (l : List HNode) :
    weightList (b :: l) = blockWeight b + weightList l := by
  simp [weightList]

theorem weightList_append (l1 l2 : List HNode) :
    weightList (l1 ++ l2) = weightList l1 + weightList l2 := by
  simp [weightList]

theorem weightList_eq_zero : ∀ {l : List HNode}, weightList l ≤ 0 → l = [] := by
  intro l h
  cases l with
  | nil => rfl
  | cons b rest =>
      rw [weightList_cons] at h
      have := one_le_blockWeight b
      omega

/-! ### findIdx facts used by the splitter -/

theorem any_take_findIdx (p : HNode → Bool) (l : List HNode) :
    (l.take (l.findIdx p)).any p = false := by
  induction l with
  | nil => simp
  | cons a t ih =>
      rw [List.findIdx_cons]
      by_cases h : p a
      · simp [h]
      · simp only [h, cond_false]
        rw [List.take_succ_cons, List.any_cons]
        simp [h, ih]

theorem drop_findIdx_of_any (p : HNode → Bool) (l : List HNode)
    (h : l.any p = true) :
    ∃ x xs, l.drop (l.findIdx p) = x :: xs ∧ p x = true := by
  induction l with
  | nil => simp at h
  | cons a t ih =>
      rw [List.findIdx_cons]
      by_cases ha : p a
      · exact ⟨a, t, by simp [ha], ha⟩
      · simp only [ha, cond_false]
        rw [List.any_cons] at h
        simp only [ha, Bool.false_or] at h
        obtain ⟨x, xs, hdrop, hx⟩ := ih h
        exact ⟨x, xs, by simpa using hdrop, hx⟩

theorem findIdx_lt_length_of_any (p : HNode → Bool) (l : List HNode)
    (h : l.any p = true) : l.findIdx p < l.length := by
  obtain ⟨x, xs, hdrop, _⟩ := drop_findIdx_of_any p l h
  by_contra hge
  push_neg at hge
  rw [List.drop_eq_nil_of_le hge] at hdrop
  exact List.noConfusion hdrop

/-! ### Splitter characterization -/

/-- Unfolding of a successful split: the source splits the children at the
first image-bearing direct child, that index is positive, and both shallow
clones are non-empty. -/
theorem split_eq_some_iff (t : String) (cl : List String) (id : String)
    (cs : List HNode) (parts : List HNode) :
    splitElementBeforeFirstImage (.elem t cl id cs) = some parts ↔
      (cs.any containsImg = true ∧ 0 < cs.findIdx containsImg ∧
        isEffectivelyEmptyBlock (beforePart t cl id cs (cs.findIdx containsImg)) = false ∧
        isEffectivelyEmptyBlock (afterPart t cl id cs (cs.findIdx containsImg)) = false ∧
        parts = [beforePart t cl id cs (cs.findIdx containsImg),
                 afterPart t cl id cs (cs.findIdx containsImg)]) := by
  by_cases hAny : cs.any containsImg = true
  · by_cases hk0 : cs.findIdx containsImg = 0
    · simp [splitElementBeforeFirstImage, hAny, hk0]
    · have hkpos : 0 < cs.findIdx containsImg := Nat.pos_of_ne_zero hk0
      by_cases hb :
          isEffectivelyEmptyBlock (beforePart t cl id cs (cs.findIdx containsImg)) = true
      · by_cases ha :
            isEffectivelyEmptyBlock (afterPart t cl id cs (cs.findIdx containsImg)) = true
        · simp [splitElementBeforeFirstImage, hAny, hk0, hb, ha]
        · simp [splitElementBeforeFirstImage, hAny, hk0, hb, ha]
      · by_cases ha :
            isEffectivelyEmptyBlock (afterPart t cl id cs (cs.findIdx containsImg)) = true
        · simp [splitElementBeforeFirstImage, hAny, hk0, hb, ha]
        · simp only [splitElementBeforeFirstImage, hAny, Bool.not_true,
            Bool.false_eq_true, if_false, hb, ha]
          rw [if_neg (by simp [hk0])]
          simp [hAny, hkpos, hb, ha, eq_comm]
  · simp [splitElementBeforeFirstImage, hAny]

theorem split_text_eq_none (s : String) :
    splitElementBeforeFirstImage (.text s) = none := rfl

/-- A successful split has exactly the two halves as parts. -/
theorem split_parts_shape {el : HNode} {parts : List HNode}
    (h : splitElementBeforeFirstImage el = some parts) :
    ∃ t cl id cs,
      el = .elem t cl id cs ∧ cs.any containsImg = true ∧
      0 < cs.findIdx containsImg ∧
      parts = [beforePart t cl id cs (cs.findIdx containsImg),
               afterPart t cl id cs (cs.findIdx containsImg)] := by
  cases el with
  | text s => rw [split_text_eq_none] at h; exact Option.noConfusion h
  | elem t cl id cs =>
      rw [split_eq_some_iff] at h
      exact ⟨t, cl, id, cs, rfl, h.1, h.2.1, h.2.2.2.2⟩

/-- The before half of a successful split contains no image, so it cannot
be split again. -/
theorem split_beforePart_eq_none (t : String) (cl : List String) (id : String)
    (cs : List HNode) :
    splitElementBeforeFirstImage (beforePart t cl id cs (cs.findIdx containsImg)) = none := by
  unfold beforePart splitElementBeforeFirstImage
  simp [any_take_findIdx]

/-- The after half of a successful split starts with the image-bearing
child, so its own split index is `0` and it cannot be split again. -/
theorem split_afterPart_eq_none (t : String) (cl : List String) (id : String)
    (cs : List HNode) (h : cs.any containsImg = true) :
    splitElementBeforeFirstImage (afterPart t cl id cs (cs.findIdx containsImg)) = none := by
  obtain ⟨x, xs, hdrop, hx⟩ := drop_findIdx_of_any containsImg cs h
  unfold afterPart splitElementBeforeFirstImage
  rw [hdrop]
  simp [List.findIdx_cons, hx]

/-- Core of the termination argument (and of claim C9): a successful split
yields exactly two parts, neither of which can be split again. -/
theorem split_parts_unsplittable {el : HNode} {parts : List HNode}
    (h : splitElementBeforeFirstImage el = some parts) :
    ∃ x y, parts = [x, y] ∧
      splitElementBeforeFirstImage x = none ∧
      splitElementBeforeFirstImage y = none := by
  obtain ⟨t, cl, id, cs, _, hAny, _, hparts⟩ := split_parts_shape h
  exact ⟨_, _, hparts,
    split_beforePart_eq_none t cl id cs,
    split_afterPart_eq_none t cl id cs hAny⟩

/-- The weight of the parts of a successful split. -/
theorem weightList_parts {el : HNode} {parts : List HNode}
    (h : splitElementBeforeFirstImage el = some parts) :
    weightList parts = 2 := by
  obtain ⟨x, y, hparts, hx, hy⟩ := split_parts_unsplittable h
  subst hparts
  simp [weightList, blockWeight, hx, hy]

/-- A split preserves text content: the two halves carry exactly the
children of the original block, in order. -/
theorem split_textContent {el : HNode} {parts : List HNode}
    (h : splitElementBeforeFirstImage el = some parts) :
    HNode.textContentList parts = HNode.textContent el := by
  obtain ⟨t, cl, id, cs, hel, _, _, hparts⟩ := split_parts_shape h
  subst hel hparts
  simp only [HNode.textContentList, HNode.textContent, beforePart, afterPart,
    String.append_empty]
  rw [← textContentList_append, List.take_append_drop]

/-! ### Exhaustive case analysis of one packing iteration -/

/-- Every iteration of the packing loop takes exactly one of ten
transitions; each disjunct records the guard conditions of its branch
and the resulting state. -/
theorem packStep_cases (measure : List HNode → Nat) (maxB : Nat)
    (b : HNode) (rest buf : List HNode) (pages : List (List HNode)) :
    (isPageBreak b = true ∧
      packStep measure maxB b rest buf pages = ⟨rest, [], flushPage pages buf⟩) ∨
    (isPageBreak b = false ∧ buf = [] ∧
      isEffectivelyEmptyBlock (firstOnPageClone buf b) = true ∧
      packStep measure maxB b rest buf pages = ⟨rest, buf, pages⟩) ∨
    (isPageBreak b = false ∧
      (buf.isEmpty && isEffectivelyEmptyBlock (firstOnPageClone buf b)) = false ∧
      measure (buf ++ [firstOnPageClone buf b]) ≤ maxB ∧ rest = [] ∧
      packStep measure maxB b rest buf pages =
        ⟨rest, buf ++ [firstOnPageClone buf b], pages⟩) ∨
    (isPageBreak b = false ∧
      (buf.isEmpty && isEffectivelyEmptyBlock (firstOnPageClone buf b)) = false ∧
      measure (buf ++ [firstOnPageClone buf b]) ≤ maxB ∧ rest ≠ [] ∧
      isHeading b = false ∧
      packStep measure maxB b rest buf pages =
        ⟨rest, buf ++ [firstOnPageClone buf b], pages⟩) ∨
    (isPageBreak b = false ∧
      (buf.isEmpty && isEffectivelyEmptyBlock (firstOnPageClone buf b)) = false ∧
      measure (buf ++ [firstOnPageClone buf b]) ≤ maxB ∧
      (∃ next t, rest = next :: t ∧
        measure (buf ++ [firstOnPageClone buf b] ++ [next]) ≤ maxB) ∧
      isHeading b = true ∧
      packStep measure maxB b rest buf pages =
        ⟨rest, buf ++ [firstOnPageClone buf b], pages⟩) ∨
    (isPageBreak b = false ∧
      (buf.isEmpty && isEffectivelyEmptyBlock (firstOnPageClone buf b)) = false ∧
      measure (buf ++ [firstOnPageClone buf b]) ≤ maxB ∧
      (∃ next t, rest = next :: t ∧
        ¬measure (buf ++ [firstOnPageClone buf b] ++ [next]) ≤ maxB) ∧
      isHeading b = true ∧
      packStep measure maxB b rest buf pages = ⟨rest, [b], flushPage pages buf⟩) ∨
    (isPageBreak b = false ∧
      (buf.isEmpty && isEffectivelyEmptyBlock (firstOnPageClone buf b)) = false ∧
      ¬measure (buf ++ [firstOnPageClone buf b]) ≤ maxB ∧ buf = [] ∧
      (∃ parts, splitElementBeforeFirstImage b = some parts ∧
        packStep measure maxB b rest buf pages = ⟨parts ++ rest, buf, pages⟩)) ∨
    (isPageBreak b = false ∧
      (buf.isEmpty && isEffectivelyEmptyBlock (firstOnPageClone buf b)) = false ∧
      ¬measure (buf ++ [firstOnPageClone buf b]) ≤ maxB ∧ buf = [] ∧
      splitElementBeforeFirstImage b = none ∧
      packStep measure maxB b rest buf pages =
        ⟨rest, buf ++ [firstOnPageClone buf b], pages⟩) ∨
    (isPageBreak b = false ∧
      (buf.isEmpty && isEffectivelyEmptyBlock (firstOnPageClone buf b)) = false ∧
      ¬measure (buf ++ [firstOnPageClone buf b]) ≤ maxB ∧ buf ≠ [] ∧
      (∃ hLast, buf.getLast? = some hLast ∧ isHeading hLast = true ∧
        packStep measure maxB b rest buf pages =
          ⟨rest, [hLast, b], flushPage pages buf.dropLast⟩)) ∨
    (isPageBreak b = false ∧
      (buf.isEmpty && isEffectivelyEmptyBlock (firstOnPageClone buf b)) = false ∧
      ¬measure (buf ++ [firstOnPageClone buf b]) ≤ maxB ∧ buf ≠ [] ∧
      (∃ hLast, buf.getLast? = some hLast ∧ isHeading hLast = false) ∧
      packStep measure maxB b rest buf pages = ⟨rest, [b], flushPage pages buf⟩) := by
  by_cases h1 : isPageBreak b = true
  · exact Or.inl ⟨h1, by simp [packStep, h1]⟩
  have h1f : isPageBreak b = false := by simpa using h1
  by_cases h2 : (buf.isEmpty && isEffectivelyEmptyBlock (firstOnPageClone buf b)) = true
  · refine Or.inr (Or.inl ?_)
    have hbuf : buf = [] := by
      rcases Bool.and_eq_true .. |>.mp h2 with ⟨hb, _⟩
      exact List.isEmpty_iff.mp hb
    have he : isEffectivelyEmptyBlock (firstOnPageClone buf b) = true :=
      (Bool.and_eq_true .. |>.mp h2).2
    exact ⟨h1f, hbuf, he, by simp [packStep, h1f, h2]⟩
  have h2f : (buf.isEmpty && isEffectivelyEmptyBlock (firstOnPageClone buf b)) = false := by
    simpa using h2
  by_cases h3 : measure (buf ++ [firstOnPageClone buf b]) ≤ maxB
  · cases hr : rest with
    | nil =>
        refine Or.inr (Or.inr (Or.inl ?_))
        exact ⟨h1f, h2f, h3, rfl, by simp [packStep, h1f, h2f, h3, hr]⟩
    | cons next t =>
        by_cases h5 : measure (buf ++ [firstOnPageClone buf b] ++ [next]) ≤ maxB
        case pos =>
          have h5x : measure (buf ++ [firstOnPageClone buf b, next]) ≤ maxB := by
            simpa using h5
          by_cases h4 : isHeading b = true
          · refine Or.inr (Or.inr (Or.inr (Or.inr (Or.inl ?_))))
            exact ⟨h1f, h2f, h3, ⟨next, t, rfl, h5⟩, h4,
              by simp [packStep, h1f, h2f, h3, hr, h4, h5x]⟩
          · refine Or.inr (Or.inr (Or.inr (Or.inl ?_)))
            have h4f : isHeading b = false := by simpa using h4
            exact ⟨h1f, h2f, h3, by simp, h4f,
              by simp [packStep, h1f, h2f, h3, hr, h4f]⟩
        case neg =>
          have h5x : ¬measure (buf ++ [firstOnPageClone buf b, next]) ≤ maxB := by
            simpa using h5
          by_cases h4 : isHeading b = true
          · refine Or.inr (Or.inr (Or.inr (Or.inr (Or.inr (Or.inl ?_)))))
            exact ⟨h1f, h2f, h3, ⟨next, t, rfl, h5⟩, h4,
              by simp [packStep, h1f, h2f, h3, hr, h4, h5x]⟩
          · refine Or.inr (Or.inr (Or.inr (Or.inl ?_)))
            have h4f : isHeading b = false := by simpa using h4
            exact ⟨h1f, h2f, h3, by simp, h4f,
              by simp [packStep, h1f, h2f, h3, hr, h4f]⟩
  · by_cases h6 : buf = []
    · subst h6
      have h2x : isEffectivelyEmptyBlock (firstOnPageClone [] b) = false := by
        simpa using h2f
      have h3x : ¬measure [firstOnPageClone [] b] ≤ maxB := by simpa using h3
      cases h7 : splitElementBeforeFirstImage b with
      | some parts =>
          refine Or.inr (Or.inr (Or.inr (Or.inr (Or.inr (Or.inr (Or.inl ?_))))))
          exact ⟨h1f, h2f, h3, rfl, parts, rfl,
            by simp [packStep, h1f, h2x, h3x, h7]⟩
      | none =>
          refine Or.inr (Or.inr (Or.inr (Or.inr (Or.inr (Or.inr (Or.inr (Or.inl ?_)))))))
          exact ⟨h1f, h2f, h3, rfl, rfl,
            by simp [packStep, h1f, h2x, h3x, h7]⟩
    · have hne : buf ≠ [] := h6
      cases hL : buf.getLast? with
      | none => exact absurd (List.getLast?_eq_none_iff.mp hL) hne
      | some hLast =>
          by_cases h8 : isHeading hLast = true
          · refine Or.inr (Or.inr (Or.inr (Or.inr (Or.inr (Or.inr (Or.inr
              (Or.inr (Or.inl ?_))))))))
            exact ⟨h1f, h2f, h3, hne, hLast, rfl, h8,
              by simp [packStep, h1f, h2f, h3, h6, hL, h8]⟩
          · refine Or.inr (Or.inr (Or.inr (Or.inr (Or.inr (Or.inr (Or.inr
              (Or.inr (Or.inr ?_))))))))
            have h8f : isHeading hLast = false := by simpa using h8
            exact ⟨h1f, h2f, h3, hne, ⟨hLast, rfl, h8f⟩,
              by simp [packStep, h1f, h2f, h3, h6, hL, h8f]⟩

/-- Every iteration strictly decreases the total weight of the remaining
input: each branch either consumes the head block (weight at least 1) or
replaces a splittable head (weight 3) by its two unsplittable parts
(weight 2). -/
theorem packStep_weight (measure : List HNode → Nat) (maxB : Nat)
    (b : HNode) (rest buf : List HNode) (pages : List (List HNode)) :
    weightList (packStep measure maxB b rest buf pages).rem <
      weightList (b :: rest) := by
  have hw1 := one_le_blockWeight b
  have hrest : weightList rest < weightList (b :: rest) := by
    rw [weightList_cons]; omega
  rcases packStep_cases measure maxB b rest buf pages with
      ⟨_, hs⟩ | ⟨_, _, _, hs⟩ | ⟨_, _, _, _, hs⟩ | ⟨_, _, _, _, _, hs⟩ |
      ⟨_, _, _, _, _, hs⟩ | ⟨_, _, _, _, _, hs⟩ | ⟨_, _, _, _, parts, h7, hs⟩ |
      ⟨_, _, _, _, _, hs⟩ | ⟨_, _, _, _, hLast, _, _, hs⟩ | ⟨_, _, _, _, _, hs⟩ <;>
    rw [hs] <;> dsimp only
  all_goals try exact hrest
  have hb3 : blockWeight b = 3 := by simp [blockWeight, h7]
  have hp2 : weightList parts = 2 := weightList_parts h7
  rw [weightList_append, weightList_cons, hp2, hb3]
  omega

/-- Fuel does not matter once it covers the remaining weight: the packing
loop reaches the end of its input within `weightList rem` iterations. -/
theorem packGo_fuel_irrelevant (measure : List HNode → Nat) (maxB : Nat) :
    ∀ f g rem buf pages, weightList rem ≤ f → weightList rem ≤ g →
      packGo measure maxB f rem buf pages = packGo measure maxB g rem buf pages := by
  intro f
  induction f with
  | zero =>
      intro g rem buf pages hf _
      have : rem = [] := weightList_eq_zero hf
      subst this
      cases g <;> rfl
  | succ n ih =>
      intro g rem buf pages hf hg
      cases rem with
      | nil => cases g <;> rfl
      | cons b rest =>
          have hw1 := one_le_blockWeight b
          have hwc : weightList (b :: rest) = blockWeight b + weightList rest :=
            weightList_cons b rest
          obtain ⟨m, rfl⟩ : ∃ m, g = m + 1 := by
            cases g with
            | zero => exfalso; have := weightList_eq_zero hg; simp at this
            | succ m => exact ⟨m, rfl⟩
          show packGo measure maxB (n + 1) (b :: rest) buf pages =
            packGo measure maxB (m + 1) (b :: rest) buf pages
          have hstep := packStep_weight measure maxB b rest buf pages
          rcases hps : packStep measure maxB b rest buf pages with ⟨rem2, buf2, pages2⟩
          rw [hps] at hstep
          dsimp only at hstep
          simp only [packGo, hps]
          exact ih m rem2 buf2 pages2 (by omega) (by omega)

/-- A generic invariant principle for the packing loop: if the invariant
is preserved by every `packStep` transition and implies the final
property at the flush, then every sufficiently fuelled run satisfies the
final property. -/
theorem packGo_invariant (measure : List HNode → Nat) (maxB : Nat)
    (Inv : List HNode → List HNode → List (List HNode) → Prop)
    (P : List (List HNode) → Prop)
    (hstep : ∀ b rest buf pages, Inv (b :: rest) buf pages →
      Inv (packStep measure maxB b rest buf pages).rem
        (packStep measure maxB b rest buf pages).buf
        (packStep measure maxB b rest buf pages).pages)
    (hflush : ∀ buf pages, Inv [] buf pages → P (flushPage pages buf)) :
    ∀ fuel rem buf pages, weightList rem ≤ fuel → Inv rem buf pages →
      P (packGo measure maxB fuel rem buf pages) := by
  intro fuel
  induction fuel with
  | zero =>
      intro rem buf pages hfu hinv
      have : rem = [] := weightList_eq_zero hfu
      subst this
      exact hflush buf pages hinv
  | succ n ih =>
      intro rem buf pages hfu hinv
      cases rem with
      | nil => exact hflush buf pages hinv
      | cons b rest =>
          have hstep2 := hstep b rest buf pages hinv
          have hw := packStep_weight measure maxB b rest buf pages
          have hwc := weightList_cons b rest
          rcases hps : packStep measure maxB b rest buf pages with ⟨rem2, buf2, pages2⟩
          rw [hps] at hstep2 hw
          dsimp only at hstep2 hw
          simp only [packGo, hps]
          exact ih rem2 buf2 pages2 (by omega) hstep2

/-! ### Generic facts about flushing -/

theorem flushPage_empty (pages : List (List HNode)) : flushPage pages [] = pages := rfl

theorem flushPage_prop {Q : List HNode → Prop} {pages : List (List HNode)}
    {buf : List HNode} (hp : ∀ p ∈ pages, Q p) (hb : buf ≠ [] → Q buf) :
    ∀ p ∈ flushPage pages buf, Q p := by
  intro p hmem
  unfold flushPage at hmem
  by_cases hbe : buf.isEmpty
  · rw [if_pos hbe] at hmem; exact hp p hmem
  · rw [if_neg hbe] at hmem
    rcases List.mem_append.mp hmem with h | h
    · exact hp p h
    · rcases List.mem_singleton.mp h with rfl
      exact hb (by simpa using hbe)

theorem trimLeadingBr_tag_classes (b : HNode) :
    (isPageBreak (trimLeadingBrOnPageStart b) = isPageBreak b) ∧
    (isHeading (trimLeadingBrOnPageStart b) = isHeading b) := by
  cases b with
  | text s => exact ⟨rfl, rfl⟩
  | elem t cl id cs =>
      simp only [trimLeadingBrOnPageStart]
      split_ifs <;> exact ⟨rfl, rfl⟩

theorem isPageBreak_firstOnPageClone (buf : List HNode) (b : HNode) :
    isPageBreak (firstOnPageClone buf b) = isPageBreak b := by
  unfold firstOnPageClone
  split_ifs with h
  · exact (trimLeadingBr_tag_classes b).1
  · rfl

theorem isHeading_firstOnPageClone (buf : List HNode) (b : HNode) :
    isHeading (firstOnPageClone buf b) = isHeading b := by
  unfold firstOnPageClone
  split_ifs with h
  · exact (trimLeadingBr_tag_classes b).2
  · rfl

/-- Membership in the buffer after dropping its last element. -/
theorem mem_of_mem_dropLast {x : HNode} {l : List HNode}
    (h : x ∈ l.dropLast) : x ∈ l := by
  cases hL : l.getLast? with
  | none =>
      rw [List.getLast?_eq_none_iff.mp hL] at h
      simp at h
  | some a =>
      have := List.dropLast_append_getLast? a hL
      rw [← this]
      exact List.mem_append.mpr (Or.inl h)

/-- Pages produced by a split carry no page-break class: both halves are
shallow clones of the original container. -/
theorem split_parts_classes {b : HNode} {parts : List HNode}
    (h : splitElementBeforeFirstImage b = some parts) :
    ∀ x ∈ parts, isPageBreak x = isPageBreak b := by
  obtain ⟨t, cl, id, cs, hel, _, _, hparts⟩ := split_parts_shape h
  subst hel hparts
  intro x hx
  simp only [List.mem_cons, List.not_mem_nil, or_false] at hx
  rcases hx with rfl | rfl
  · rfl
  · rfl

/-! ### Claim C5 -/

/-- The page/buffer property for claim C5: a completed page is non-empty
and contains no manual-break marker. -/
def noBreakPage (p : List HNode) : Prop :=
  p ≠ [] ∧ ∀ x ∈ p, isPageBreak x = false

theorem packStep_noBreak_invariant (measure : List HNode → Nat) (maxB : Nat) :
    ∀ b rest buf pages,
      ((∀ p ∈ pages, noBreakPage p) ∧ ∀ x ∈ buf, isPageBreak x = false) →
      ((∀ p ∈ (packStep measure maxB b rest buf pages).pages, noBreakPage p) ∧
        ∀ x ∈ (packStep measure maxB b rest buf pages).buf, isPageBreak x = false) := by
  intro b rest buf pages ⟨hpg, hbuf⟩
  have hflushed : ∀ p ∈ flushPage pages buf, noBreakPage p :=
    flushPage_prop hpg (fun hne => ⟨hne, hbuf⟩)
  rcases packStep_cases measure maxB b rest buf pages with
      ⟨_, hs⟩ | ⟨_, _, _, hs⟩ | ⟨hb, _, _, _, hs⟩ | ⟨hb, _, _, _, _, hs⟩ |
      ⟨hb, _, _, _, _, hs⟩ | ⟨hb, _, _, _, _, hs⟩ | ⟨hb, _, _, _, parts, h7, hs⟩ |
      ⟨hb, _, _, _, _, hs⟩ | ⟨hb, _, _, _, hLast, hL, _, hs⟩ | ⟨hb, _, _, _, _, hs⟩ <;>
    rw [hs] <;> dsimp only
  · exact ⟨hflushed, by simp⟩
  · exact ⟨hpg, hbuf⟩
  · refine ⟨hpg, ?_⟩
    intro x hx
    rcases List.mem_append.mp hx with h | h
    · exact hbuf x h
    · rcases List.mem_singleton.mp h with rfl
      rw [isPageBreak_firstOnPageClone]; exact hb
  · refine ⟨hpg, ?_⟩
    intro x hx
    rcases List.mem_append.mp hx with h | h
    · exact hbuf x h
    · rcases List.mem_singleton.mp h with rfl
      rw [isPageBreak_firstOnPageClone]; exact hb
  · refine ⟨hpg, ?_⟩
    intro x hx
    rcases List.mem_append.mp hx with h | h
    · exact hbuf x h
    · rcases List.mem_singleton.mp h with rfl
      rw [isPageBreak_firstOnPageClone]; exact hb
  · refine ⟨hflushed, ?_⟩
    intro x hx
    rcases List.mem_singleton.mp hx with rfl
    exact hb
  · exact ⟨hpg, hbuf⟩
  · refine ⟨hpg, ?_⟩
    intro x hx
    rcases List.mem_append.mp hx with h | h
    · exact hbuf x h
    · rcases List.mem_singleton.mp h with rfl
      rw [isPageBreak_firstOnPageClone]; exact hb
  · refine ⟨?_, ?_⟩
    · exact flushPage_prop hpg (fun hne =>
        ⟨hne, fun x hx => hbuf x (mem_of_mem_dropLast hx)⟩)
    · intro x hx
      simp only [List.mem_cons, List.not_mem_nil, or_false] at hx
      rcases hx with rfl | rfl
      · exact hbuf x (by
          have := List.dropLast_append_getLast? x hL
          rw [← this]
          exact List.mem_append.mpr (Or.inr (by simp)))
      · exact hb
  · refine ⟨hflushed, ?_⟩
    intro x hx
    rcases List.mem_singleton.mp hx with rfl
    exact hb

/-! ### Concrete sample blocks used by witnesses and counterexamples -/

/-- A short paragraph block. -/
def blkA : HNode := .elem "p" [] "" [.text "Alpha"]
/-- Another short paragraph block. -/
def blkB : HNode := .elem "p" [] "" [.text "Bravo"]
/-- A tall paragraph block (assigned a large height below). -/
def blkBig : HNode := .elem "p" [] "" [.text "Large"]
/-- A level-2 heading block. -/
def blkHead : HNode := .elem "h2" [] "" [.text "Head"]
/-- A level-3 heading block. -/
def blkHead2 : HNode := .elem "h3" [] "" [.text "Sub"]
/-- A bare image element. -/
def blkImg : HNode := .elem "img" [] "" []
/-- A paragraph whose only content is an image: not an effectively empty
block, yet carrying no visible text. -/
def blkPImg : HNode := .elem "p" [] "" [blkImg]
/-- A manual page-break marker block. -/
def blkBreak : HNode := .elem "div" ["page-break"] "" []

/-- The additive box-model instantiation of the measurement oracle: every
block has a fixed height, and the consumed height of the measuring page
is the sum of the heights of its blocks. -/
def sumMeasure (h : HNode → Nat) (l : List HNode) : Nat :=
  (l.map h).sum

/-- Heights for the no-overflow counterexample: the short paragraph and
heading fit, the tall paragraph alone exceeds any page. -/
def heightsOverflow : HNode → Nat := fun n =>
  if n = blkA then 5 else if n = blkHead then 2 else 100

/-- Heights for the heading-orphan counterexample: both headings are
small, the tall paragraph does not fit anywhere with content. -/
def heightsOrphan : HNode → Nat := fun n =>
  if n = blkA then 5 else if n = blkHead then 1 else
  if n = blkHead2 then 1 else 100

/-- Heights for the conservation counterexample: the image paragraph and
the text paragraph each fit alone but not together. -/
def heightsImg : HNode → Nat := fun n =>
  if n = blkPImg then 5 else if n = blkB then 6 else 0

/-- C5: a manual page-break marker flushes the current buffer as a
completed page only when it is non-empty (the flush is a no-op on an
empty buffer), resets the buffer, and is itself never added to any output
page; every completed page is non-empty, so a marker at the start or end
of the document or consecutive markers never produce an empty page. -/
theorem C5_manual_page_break (measure : List HNode → Nat) (maxB : Nat)
    (blocks : List HNode) :
    (∀ pages, flushPage pages [] = pages) ∧
    (∀ b rest buf pages, isPageBreak b = true →
      packStep measure maxB b rest buf pages = ⟨rest, [], flushPage pages buf⟩) ∧
    ∀ p ∈ paginatePages measure maxB blocks,
      p ≠ [] ∧ ∀ x ∈ p, isPageBreak x = false := by
  refine ⟨fun pages => rfl, ?_, ?_⟩
  · intro b rest buf pages hb
    simp [packStep, hb]
  · exact packGo_invariant measure maxB
      (fun _ buf pages =>
        (∀ p ∈ pages, noBreakPage p) ∧ ∀ x ∈ buf, isPageBreak x = false)
      (fun pages => ∀ p ∈ pages, noBreakPage p)
      (packStep_noBreak_invariant measure maxB)
      (fun buf pages hinv => flushPage_prop hinv.1 (fun hne => ⟨hne, hinv.2⟩))
      (weightList blocks) blocks [] [] le_rfl ⟨by simp, by simp⟩

/-- Witness for C5: a concrete three-block document with leading,
trailing and interior break markers packs into non-empty, marker-free
pages, and the theorem applies to its first page. -/
theorem C5_manual_page_break_witness :
    [blkA] ∈ paginatePages (sumMeasure heightsImg) 10
        [blkBreak, blkA, blkBreak, blkBreak, blkB, blkBreak] ∧
    ([blkA] ≠ [] ∧ ∀ x ∈ [blkA], isPageBreak x = false) :=
  ⟨by decide,
    (C5_manual_page_break (sumMeasure heightsImg) 10
        [blkBreak, blkA, blkBreak, blkBreak, blkB, blkBreak]).2.2
      [blkA] (by decide)⟩

/-! ### Claim C2 -/

theorem sumMeasure_append (h : HNode → Nat) (l1 l2 : List HNode) :
    sumMeasure h (l1 ++ l2) = sumMeasure h l1 + sumMeasure h l2 := by
  simp [sumMeasure]

/-- The blank-page filter only removes pages: every surviving page was
produced by the packer. -/
theorem mem_blankPageFilter :
    ∀ (l : List (List HNode)) (p : List HNode), p ∈ blankPageFilter l → p ∈ l
  | [], p, h => by simp [blankPageFilter] at h
  | [q], p, h => by simpa [blankPageFilter] using h
  | q1 :: q2 :: rest, p, h => by
      rw [blankPageFilter] at h
      split_ifs at h with he
      · exact List.mem_cons_of_mem q1 (mem_blankPageFilter (q2 :: rest) p h)
      · exact h

/-- The page classification of the amended no-overflow property: a page
fits, or is a single block, or is a heading paired with its follower by
the eviction step (which does not re-measure the pair). -/
def goodPage (h : HNode → Nat) (maxB : Nat) (p : List HNode) : Prop :=
  sumMeasure h p ≤ maxB ∨ p.length = 1 ∨
    (p.length = 2 ∧ ∃ x, p.head? = some x ∧ isHeading x = true)

theorem packStep_goodPage_invariant (h : HNode → Nat) (maxB : Nat) :
    ∀ b rest buf pages,
      ((∀ q ∈ pages, goodPage h maxB q) ∧ (buf = [] ∨ goodPage h maxB buf)) →
      ((∀ q ∈ (packStep (sumMeasure h) maxB b rest buf pages).pages,
          goodPage h maxB q) ∧
        ((packStep (sumMeasure h) maxB b rest buf pages).buf = [] ∨
          goodPage h maxB (packStep (sumMeasure h) maxB b rest buf pages).buf)) := by
  intro b rest buf pages ⟨hpg, hbuf⟩
  have hflushed : ∀ q ∈ flushPage pages buf, goodPage h maxB q :=
    flushPage_prop hpg (fun hne => hbuf.resolve_left hne)
  rcases packStep_cases (sumMeasure h) maxB b rest buf pages with
      ⟨_, hs⟩ | ⟨_, _, _, hs⟩ | ⟨_, _, h3, _, hs⟩ | ⟨_, _, h3, _, _, hs⟩ |
      ⟨_, _, h3, _, _, hs⟩ | ⟨_, _, h3, _, _, hs⟩ | ⟨_, _, _, hbe, parts, h7, hs⟩ |
      ⟨_, _, _, hbe, _, hs⟩ | ⟨_, _, _, hne, hLast, hL, hHead, hs⟩ |
      ⟨_, _, _, hne, _, hs⟩ <;>
    rw [hs] <;> dsimp only
  · exact ⟨hflushed, Or.inl rfl⟩
  · exact ⟨hpg, hbuf⟩
  · exact ⟨hpg, Or.inr (Or.inl h3)⟩
  · exact ⟨hpg, Or.inr (Or.inl h3)⟩
  · exact ⟨hpg, Or.inr (Or.inl h3)⟩
  · refine ⟨flushPage_prop hpg (fun _ => Or.inl ?_), Or.inr (Or.inr (Or.inl rfl))⟩
    have := sumMeasure_append h buf [firstOnPageClone buf b]
    omega
  · exact ⟨hpg, hbuf⟩
  · subst hbe
    exact ⟨hpg, Or.inr (Or.inr (Or.inl rfl))⟩
  · constructor
    · refine flushPage_prop hpg (fun hne2 => ?_)
      have hbufeq : buf.dropLast ++ [hLast] = buf :=
        List.dropLast_append_getLast? hLast hL
      rcases hbuf with rfl | hgood
      · exact absurd rfl hne
      · rcases hgood with hfit | hone | ⟨htwo, hx⟩
        · refine Or.inl ?_
          rw [← hbufeq, sumMeasure_append] at hfit
          omega
        · exfalso
          have : buf.dropLast.length = 0 := by
            have := List.length_dropLast buf
            omega
          exact hne2 (List.eq_nil_of_length_eq_zero this)
        · refine Or.inr (Or.inl ?_)
          have := List.length_dropLast buf
          omega
    · exact Or.inr (Or.inr (Or.inr ⟨rfl, hLast, rfl, hHead⟩))
  · exact ⟨flushPage_prop hpg (fun hne2 => hbuf.resolve_left hne2),
      Or.inr (Or.inr (Or.inl rfl))⟩

/-- C2 (amended): with an additive box-model oracle, every page surviving
the blank-page filter either measures within the content budget, or
consists of a single block (the splitter is consulted only when a block
overflows an empty page), or is a heading directly followed by the block
that was moved with it by the orphan-avoidance eviction, which commits
the pair without re-measuring it. -/
theorem C2_no_overflow_amended (h : HNode → Nat) (maxB : Nat)
    (blocks : List HNode) :
    ∀ p ∈ blankPageFilter (paginatePages (sumMeasure h) maxB blocks),
      sumMeasure h p ≤ maxB ∨ p.length = 1 ∨
        (p.length = 2 ∧ ∃ x, p.head? = some x ∧ isHeading x = true) := by
  intro p hp
  have hall : ∀ q ∈ paginatePages (sumMeasure h) maxB blocks, goodPage h maxB q :=
    packGo_invariant (sumMeasure h) maxB
      (fun _ buf pages =>
        (∀ q ∈ pages, goodPage h maxB q) ∧ (buf = [] ∨ goodPage h maxB buf))
      (fun pages => ∀ q ∈ pages, goodPage h maxB q)
      (packStep_goodPage_invariant h maxB)
      (fun buf pages hinv =>
        flushPage_prop hinv.1 (fun hne => hinv.2.resolve_left hne))
      (weightList blocks) blocks [] [] le_rfl ⟨by simp, Or.inl rfl⟩
  exact hall p (mem_blankPageFilter _ p hp)

/-- Counterexample to C2 as stated: after the heading eviction the page
holding the heading and its oversized follower is never re-measured; it
overflows the budget although it is not a single-block page, and its
second block is not even unsplittable-by-necessity — the splitter is
simply not consulted. -/
theorem C2_no_overflow_counterexample :
    blankPageFilter (paginatePages (sumMeasure heightsOverflow) 10
        [blkA, blkHead, blkBig]) = [[blkA], [blkHead, blkBig]] ∧
    sumMeasure heightsOverflow [blkHead, blkBig] = 102 ∧
    ¬sumMeasure heightsOverflow [blkHead, blkBig] ≤ 10 ∧
    [blkHead, blkBig].length ≠ 1 := by decide

/-- Witness for C2 (amended): the first page of the same run fits the
budget, and the theorem applies to it. -/
theorem C2_no_overflow_amended_witness :
    [blkA] ∈ blankPageFilter (paginatePages (sumMeasure heightsOverflow) 10
        [blkA, blkHead, blkBig]) ∧
    (sumMeasure heightsOverflow [blkA] ≤ 10 ∨ [blkA].length = 1 ∨
      ([blkA].length = 2 ∧ ∃ x, [blkA].head? = some x ∧ isHeading x = true)) :=
  ⟨by decide,
    C2_no_overflow_amended heightsOverflow 10 [blkA, blkHead, blkBig]
      [blkA] (by decide)⟩

/-! ### Claim C9 -/

/-- A paragraph with text before its image: the splitter succeeds on it. -/
def blkSplittable : HNode := .elem "p" [] "" [.text "hi", blkImg]
/-- The before half of splitting `blkSplittable`. -/
def blkSplitBefore : HNode := .elem "p" [] "" [.text "hi"]
/-- The after half of splitting `blkSplittable`. -/
def blkSplitAfter : HNode := .elem "p" [] "" [blkImg]

/-- C9: the packing loop terminates on every finite input.  A successful
split yields exactly two parts, neither of which can be split again (the
before half has no image; the after half's image-bearing child is its
first child), so the splice-and-retry step fires at most once per
original block; consequently the loop's result is independent of the fuel
as soon as the fuel covers the input weight, i.e. the recursion completes
within `weightList` iterations. -/
theorem C9_packer_termination :
    (∀ el parts, splitElementBeforeFirstImage el = some parts →
      ∃ x y, parts = [x, y] ∧
        splitElementBeforeFirstImage x = none ∧
        splitElementBeforeFirstImage y = none) ∧
    ∀ (measure : List HNode → Nat) (maxB f g : Nat)
      (rem buf : List HNode) (pages : List (List HNode)),
      weightList rem ≤ f → weightList rem ≤ g →
      packGo measure maxB f rem buf pages = packGo measure maxB g rem buf pages :=
  ⟨fun _ _ h => split_parts_unsplittable h,
    fun measure maxB f g rem buf pages hf hg =>
      packGo_fuel_irrelevant measure maxB f g rem buf pages hf hg⟩

/-- Witness for C9: a concrete splittable block produces two unsplittable
parts, and a concrete run gives the same pages under two different
sufficient fuels. -/
theorem C9_packer_termination_witness :
    (splitElementBeforeFirstImage blkSplittable =
        some [blkSplitBefore, blkSplitAfter] ∧
      (∃ x y, [blkSplitBefore, blkSplitAfter] = [x, y] ∧
        splitElementBeforeFirstImage x = none ∧
        splitElementBeforeFirstImage y = none)) ∧
    (weightList [blkA, blkSplittable] ≤ 4 ∧ weightList [blkA, blkSplittable] ≤ 7 ∧
      packGo (sumMeasure heightsImg) 10 4 [blkA, blkSplittable] [] [] =
        packGo (sumMeasure heightsImg) 10 7 [blkA, blkSplittable] [] []) :=
  ⟨⟨by decide,
      C9_packer_termination.1 blkSplittable [blkSplitBefore, blkSplitAfter]
        (by decide)⟩,
    ⟨by decide, by decide,
      C9_packer_termination.2 (sumMeasure heightsImg) 10 4 7
        [blkA, blkSplittable] [] [] (by decide) (by decide)⟩⟩

/-! ### Claim C8 -/

/-- A shallow clone with no children is effectively empty. -/
theorem emptyBlock_of_no_children (t : String) (cl : List String) (id : String) :
    isEffectivelyEmptyBlock (.elem t cl id []) = true := by
  show (!(subtreeHasTagList contentTags []) &&
    (stripWs (HNode.textContentList []) == "")) = true
  decide

/-- C8: the splitter's contract.  On a non-element it fails; on an
element it succeeds exactly when an image exists among the children's
subtrees and both halves obtained by cutting the direct children at the
first image-bearing child are non-empty; on success it returns exactly
the two shallow clones, the before half contains no image, the after half
starts with the image-bearing child, and the halves partition the
original children in order.  (When the image-bearing child is the first
child the source rejects the split via `splitIndex <= 0`; that case
coincides with the before half being effectively empty.) -/
theorem C8_splitter_contract :
    (∀ s, splitElementBeforeFirstImage (.text s) = none) ∧
    (∀ t cl id cs,
      (splitElementBeforeFirstImage (.elem t cl id cs)).isSome = true ↔
        (cs.any containsImg = true ∧
          isEffectivelyEmptyBlock
            (beforePart t cl id cs (cs.findIdx containsImg)) = false ∧
          isEffectivelyEmptyBlock
            (afterPart t cl id cs (cs.findIdx containsImg)) = false)) ∧
    (∀ t cl id cs parts,
      splitElementBeforeFirstImage (.elem t cl id cs) = some parts →
        parts = [beforePart t cl id cs (cs.findIdx containsImg),
                 afterPart t cl id cs (cs.findIdx containsImg)] ∧
        (cs.take (cs.findIdx containsImg)).any containsImg = false ∧
        (∃ x xs, cs.drop (cs.findIdx containsImg) = x :: xs ∧
          containsImg x = true) ∧
        cs.take (cs.findIdx containsImg) ++ cs.drop (cs.findIdx containsImg) = cs) := by
  refine ⟨fun s => rfl, ?_, ?_⟩
  · intro t cl id cs
    constructor
    · intro hsome
      obtain ⟨parts, hp⟩ := Option.isSome_iff_exists.mp hsome
      rw [split_eq_some_iff] at hp
      exact ⟨hp.1, hp.2.2.1, hp.2.2.2.1⟩
    · rintro ⟨hAny, hb, ha⟩
      have hk0 : cs.findIdx containsImg ≠ 0 := by
        intro h0
        rw [h0] at hb
        rw [show beforePart t cl id cs 0 = .elem t cl id [] from rfl] at hb
        rw [emptyBlock_of_no_children] at hb
        exact Bool.noConfusion hb
      rw [(split_eq_some_iff t cl id cs _).mpr
        ⟨hAny, Nat.pos_of_ne_zero hk0, hb, ha, rfl⟩]
      rfl
  · intro t cl id cs parts hp
    have hiff := (split_eq_some_iff t cl id cs parts).mp hp
    exact ⟨hiff.2.2.2.2, any_take_findIdx _ _,
      drop_findIdx_of_any _ _ hiff.1, List.take_append_drop _ _⟩

/-- Children of the concrete block used in the C8 witness: text on both
sides of an image-bearing paragraph. -/
def splitDocChildren : List HNode :=
  [.text "x", .elem "p" [] "" [blkImg], .text "y"]

/-- Witness for C8: a concrete block with text on both sides of an inner
image is split into the expected two shallow clones, with the partition
facts evaluated. -/
theorem C8_splitter_contract_witness :
    splitElementBeforeFirstImage (.elem "div" [] "" splitDocChildren) =
      some [.elem "div" [] "" [.text "x"],
            .elem "div" [] "" [.elem "p" [] "" [blkImg], .text "y"]] ∧
    ([.elem "div" [] "" [.text "x"],
      .elem "div" [] "" [.elem "p" [] "" [blkImg], .text "y"]] =
        [beforePart "div" [] "" splitDocChildren
          (splitDocChildren.findIdx containsImg),
         afterPart "div" [] "" splitDocChildren
          (splitDocChildren.findIdx containsImg)] ∧
      (splitDocChildren.take (splitDocChildren.findIdx containsImg)).any
          containsImg = false ∧
      (∃ x xs, splitDocChildren.drop (splitDocChildren.findIdx containsImg) =
          x :: xs ∧ containsImg x = true) ∧
      splitDocChildren.take (splitDocChildren.findIdx containsImg) ++
        splitDocChildren.drop (splitDocChildren.findIdx containsImg) =
        splitDocChildren) :=
  ⟨by decide,
    C8_splitter_contract.2.2 "div" [] "" splitDocChildren
      [.elem "div" [] "" [.text "x"],
       .elem "div" [] "" [.elem "p" [] "" [blkImg], .text "y"]] (by decide)⟩

/-! ### Claim C7 -/

/-- C7 (amended): page labelling is fixed, not configurable.  An empty
page list renders as a single synthetic page labelled `Page 1`; otherwise
the page at 1-based index `i` is labelled `Page i` — numbering always
starts at 1 on page 1 and increments by exactly 1 per page.  There is no
`firstNumberedPage`/`firstNumberValue` configuration in the code. -/
theorem C7_page_numbering_corrected :
    (renderPages [] = [⟨"Page 1", []⟩]) ∧
    (∀ pages : List (List HNode), pages ≠ [] →
      (renderPages pages).length = pages.length) ∧
    (∀ (pages : List (List HNode)) (i : Nat) (pg : List HNode),
      pages[i]? = some pg →
      (renderPages pages)[i]? = some ⟨"Page " ++ toString (i + 1), pg⟩) := by
  refine ⟨rfl, ?_, ?_⟩
  · intro pages hne
    simp [renderPages, hne]
  · intro pages i pg hget
    have hne : pages ≠ [] := by
      intro h; subst h; simp at hget
    unfold renderPages
    rw [if_neg (by simpa using hne)]
    rw [List.getElem?_map, List.getElem?_enum, hget]
    rfl

/-- Counterexample to C7 as stated: over a three-page result the code
labels the pages `Page 1`, `Page 2`, `Page 3` unconditionally — page 1
carries a number and page 2 does not display `1`, contradicting the
claimed `firstNumberedPage = 2, firstNumberValue = 1` behaviour (no such
configuration exists in the code). -/
theorem C7_page_numbering_counterexample :
    (renderPages [[blkA], [blkB], [blkBig]]).map RenderedPage.dataPage =
      ["Page 1", "Page 2", "Page 3"] ∧
    (renderPages [[blkA], [blkB], [blkBig]]).map RenderedPage.dataPage ≠
      ["", "1", "2"] := by decide

/-- Witness for C7 (amended): the second page of a concrete two-page
sequence is labelled `Page 2`. -/
theorem C7_page_numbering_corrected_witness :
    [[blkA], [blkB]][1]? = some [blkB] ∧
    (renderPages [[blkA], [blkB]])[1]? = some ⟨"Page 2", [blkB]⟩ :=
  ⟨by decide,
    C7_page_numbering_corrected.2.2 [[blkA], [blkB]] 1 [blkB] (by decide)⟩

/-! ### Claim C6 -/

/-- Specification of `findIdx?`: a hit is the first index satisfying the
predicate; a miss means no element satisfies it. -/
theorem findIdx?_first {α : Type} (p : α → Bool) :
    ∀ l : List α,
      (∀ k, l.findIdx? p = some k →
        (∃ x, l[k]? = some x ∧ p x = true) ∧
          ∀ j y, j < k → l[j]? = some y → p y = false) ∧
      (l.findIdx? p = none → ∀ x ∈ l, p x = false)
  | [] => by simp
  | a :: l => by
      have ih := findIdx?_first p l
      constructor
      · intro k hk
        rw [List.findIdx?_cons] at hk
        by_cases hpa : p a = true
        · rw [if_pos hpa] at hk
          cases hk
          exact ⟨⟨a, by simp, hpa⟩, fun j y hj _ => absurd hj (by omega)⟩
        · rw [if_neg hpa, List.findIdx?_succ] at hk
          obtain ⟨k2, hk2, rfl⟩ := Option.map_eq_some'.mp hk
          obtain ⟨⟨x, hx, hpx⟩, hmin⟩ := ih.1 k2 hk2
          refine ⟨⟨x, by simpa using hx, hpx⟩, ?_⟩
          intro j y hj hy
          cases j with
          | zero =>
              rw [List.getElem?_cons_zero] at hy
              cases hy
              simpa using hpa
          | succ j2 =>
              rw [List.getElem?_cons_succ] at hy
              exact hmin j2 y (by omega) hy
      · intro hnone x hx
        rw [List.findIdx?_cons] at hnone
        by_cases hpa : p a = true
        · rw [if_pos hpa] at hnone; cases hnone
        · rw [if_neg hpa, List.findIdx?_succ] at hnone
          rcases List.mem_cons.mp hx with rfl | hx2
          · simpa using hpa
          · exact ih.2 (Option.map_eq_none'.mp hnone) x hx2

/-- C6 (amended): the resolver is a pure rescan of the final pages.  With
no entries or no pages it changes nothing; otherwise, for an anchor
entry, a hit overwrites the entry's page label with the 1-based number of
the first page containing the target id, and a miss leaves the entry
unchanged — so the pre-pagination estimate is retained on a miss (no
sentinel is written), and the resolver never fails. -/
theorem C6_toc_resolution_corrected :
    (∀ pages, updateTOCPageNumbers [] pages = []) ∧
    (∀ entries, updateTOCPageNumbers entries [] = entries) ∧
    ∀ (entries : List TocEntry) (pages : List RenderedPage) (i : Nat)
      (e : TocEntry) (tidChars : List Char),
      entries ≠ [] → pages ≠ [] → entries[i]? = some e →
      e.href.data = '#' :: tidChars →
      (∀ k, pages.findIdx? (pageHasId ⟨tidChars⟩) = some k →
        (updateTOCPageNumbers entries pages)[i]? =
          some ⟨e.href, toString (k + 1)⟩ ∧
        (∃ pg, pages[k]? = some pg ∧ pageHasId ⟨tidChars⟩ pg = true) ∧
        ∀ j pg2, j < k → pages[j]? = some pg2 →
          pageHasId ⟨tidChars⟩ pg2 = false) ∧
      (pages.findIdx? (pageHasId ⟨tidChars⟩) = none →
        (updateTOCPageNumbers entries pages)[i]? = some e) := by
  refine ⟨fun pages => rfl, ?_, ?_⟩
  · intro entries
    simp [updateTOCPageNumbers]
  · intro entries pages i e tidChars hne hnp hget hhref
    have hresolved : ∀ r, pages.findIdx? (pageHasId ⟨tidChars⟩) = r →
        (updateTOCPageNumbers entries pages)[i]? = some
          (match r with
            | some k => (⟨e.href, toString (k + 1)⟩ : TocEntry)
            | none => e) := by
      intro r hr
      rcases e with ⟨⟨hdata⟩, label⟩
      simp only at hhref
      subst hhref
      unfold updateTOCPageNumbers
      rw [if_neg (by simpa using hne), if_neg (by simpa using hnp)]
      rw [List.getElem?_map, hget]
      rw [Option.map_some']
      cases r <;> simp [hr]
    constructor
    · intro k hk
      refine ⟨hresolved (some k) hk, ?_, ?_⟩
      · exact ((findIdx?_first (pageHasId ⟨tidChars⟩) pages).1 k hk).1
      · exact fun j pg2 hj hpg2 =>
          ((findIdx?_first (pageHasId ⟨tidChars⟩) pages).1 k hk).2 j pg2 hj hpg2
    · intro hnone
      exact hresolved none hnone

/-- Counterexample to C6 as stated: a TOC entry whose heading id appears
on no page is left holding its pre-pagination estimate (here the label
`3` produced by the TOC generator's height heuristic); it is not resolved
to an "unnumbered" marker, and the stale estimate is exactly what remains
visible. -/
theorem C6_toc_resolution_counterexample :
    updateTOCPageNumbers [⟨"#h2-gone", "3"⟩] [⟨"Page 1", [blkB]⟩] =
      [⟨"#h2-gone", "3"⟩] ∧
    pageHasId "h2-gone" ⟨"Page 1", [blkB]⟩ = false := by decide

/-- Witness for C6 (amended): on a concrete hit the entry receives the
first matching page's number; the stated conjuncts evaluate on the same
concrete data. -/
theorem C6_toc_resolution_corrected_witness :
    ([(⟨"#sec", "9"⟩ : TocEntry)] ≠ [] ∧
      ([⟨"Page 1", [blkA]⟩, ⟨"Page 2", [.elem "h2" [] "sec" [.text "S"]]⟩] :
        List RenderedPage) ≠ [] ∧
      ([(⟨"#sec", "9"⟩ : TocEntry)])[0]? = some ⟨"#sec", "9"⟩ ∧
      (⟨"#sec", "9"⟩ : TocEntry).href.data = '#' :: "sec".data ∧
      ([⟨"Page 1", [blkA]⟩, ⟨"Page 2", [.elem "h2" [] "sec" [.text "S"]]⟩] :
        List RenderedPage).findIdx? (pageHasId ⟨"sec".data⟩) = some 1) ∧
    (updateTOCPageNumbers [⟨"#sec", "9"⟩]
        [⟨"Page 1", [blkA]⟩, ⟨"Page 2", [.elem "h2" [] "sec" [.text "S"]]⟩])[0]? =
      some ⟨"#sec", toString (1 + 1)⟩ :=
  ⟨⟨by decide, by decide, by decide, by decide, by decide⟩,
    ((C6_toc_resolution_corrected.2.2 [⟨"#sec", "9"⟩]
        [⟨"Page 1", [blkA]⟩, ⟨"Page 2", [.elem "h2" [] "sec" [.text "S"]]⟩]
        0 ⟨"#sec", "9"⟩ "sec".data (by decide) (by decide) (by decide)
        (by decide)).1 1 (by decide)).1⟩

/-! ### Claim C4 -/

theorem string_append_eq_empty_iff (s t : String) :
    s ++ t = "" ↔ s = "" ∧ t = "" := by
  constructor
  · intro h
    have hd : s.data ++ t.data = [] := by
      have := congrArg String.data h
      simpa [String.data_append] using this
    rcases List.append_eq_nil.mp hd with ⟨hs, ht⟩
    exact ⟨String.ext hs, String.ext ht⟩
  · rintro ⟨rfl, rfl⟩
    rfl

theorem dropWhile_preserves_empty (q : HNode → Bool) (cs : List HNode)
    (htag : subtreeHasTagList contentTags cs = false)
    (htext : stripWs (HNode.textContentList cs) = "") :
    subtreeHasTagList contentTags (cs.dropWhile q) = false ∧
      stripWs (HNode.textContentList (cs.dropWhile q)) = "" := by
  induction cs with
  | nil => exact ⟨htag, htext⟩
  | cons c cs ih =>
      rw [subtreeHasTagList] at htag
      rw [textContentList_cons, stripWs_append] at htext
      rcases Bool.or_eq_false_iff.mp htag with ⟨h1, h2⟩
      rcases (string_append_eq_empty_iff _ _).mp htext with ⟨ht1, ht2⟩
      rw [List.dropWhile_cons]
      split_ifs with hq
      · exact ih h2 ht2
      · constructor
        · rw [subtreeHasTagList, h1, h2]; rfl
        · rw [textContentList_cons, stripWs_append, ht1, ht2]; rfl

/-- Trimming leading breaks cannot make an effectively empty block
non-empty. -/
theorem trim_keeps_empty {b : HNode}
    (h : isEffectivelyEmptyBlock b = true) :
    isEffectivelyEmptyBlock (trimLeadingBrOnPageStart b) = true := by
  cases b with
  | text s => exact h
  | elem t cl id cs =>
      rw [isEffectivelyEmptyBlock] at h
      rcases Bool.and_eq_true .. |>.mp h with ⟨htag, htext⟩
      have htag2 : subtreeHasTagList contentTags cs = false := by
        simpa using htag
      have htext2 : stripWs (HNode.textContentList cs) = "" := by
        simpa using htext
      simp only [trimLeadingBrOnPageStart]
      split_ifs with h1 h2
      · exact h
      · exact h
      · obtain ⟨ha, hb⟩ :=
          dropWhile_preserves_empty (fun c => isBrElem c || isWsText c) cs htag2 htext2
        rw [isEffectivelyEmptyBlock, ha, hb]
        rfl

/-- Packing an input of only effectively-empty blocks and break markers
produces no pages at all: the buffer never receives a block. -/
theorem pack_all_empty (measure : List HNode → Nat) (maxB : Nat)
    (blocks : List HNode)
    (hall : ∀ b ∈ blocks, isEffectivelyEmptyBlock b = true ∨ isPageBreak b = true) :
    paginatePages measure maxB blocks = [] := by
  refine packGo_invariant measure maxB
    (fun rem buf pages => buf = [] ∧ pages = [] ∧
      ∀ b ∈ rem, isEffectivelyEmptyBlock b = true ∨ isPageBreak b = true)
    (fun result => result = [])
    ?_ ?_ (weightList blocks) blocks [] [] le_rfl ⟨rfl, rfl, hall⟩
  · intro b rest buf pages ⟨hbuf, hpages, hrem⟩
    subst hbuf hpages
    have hrest : ∀ x ∈ rest, isEffectivelyEmptyBlock x = true ∨ isPageBreak x = true :=
      fun x hx => hrem x (List.mem_cons_of_mem b hx)
    rcases packStep_cases measure maxB b rest [] [] with
        ⟨_, hs⟩ | ⟨_, _, _, hs⟩ | ⟨hb, h2, _, _, hs⟩ | ⟨hb, h2, _, _, _, hs⟩ |
        ⟨hb, h2, _, _, _, hs⟩ | ⟨hb, h2, _, _, _, hs⟩ | ⟨hb, h2, _, _, parts, h7, hs⟩ |
        ⟨hb, h2, _, _, _, hs⟩ | ⟨hb, h2, _, hne, _, _, _, hs⟩ |
        ⟨hb, h2, _, hne, _, hs⟩ <;>
      rw [hs] <;> dsimp only
    · exact ⟨rfl, rfl, hrest⟩
    · exact ⟨rfl, rfl, hrest⟩
    all_goals
      exfalso
      have hbe : isEffectivelyEmptyBlock b = true := by
        rcases hrem b (List.mem_cons_self b rest) with h | h
        · exact h
        · rw [h] at hb; exact Bool.noConfusion hb
      have : isEffectivelyEmptyBlock (firstOnPageClone [] b) = true := by
        rw [firstOnPageClone]
        simpa using trim_keeps_empty hbe
      rw [List.isEmpty_nil, Bool.true_and] at h2
      rw [this] at h2
      exact Bool.noConfusion h2
  · rintro buf pages ⟨rfl, rfl, _⟩
    rfl

theorem blankPageFilter_ne_nil : ∀ l : List (List HNode), l ≠ [] →
    blankPageFilter l ≠ []
  | [], h => absurd rfl h
  | [q], _ => by simp [blankPageFilter]
  | q1 :: q2 :: rest, _ => by
      rw [blankPageFilter]
      split_ifs with he
      · exact blankPageFilter_ne_nil (q2 :: rest) (by simp)
      · simp

theorem blankPageFilter_head_not_empty :
    ∀ (l : List (List HNode)) (p : List HNode) (rest : List (List HNode)),
      blankPageFilter l = p :: rest → rest ≠ [] →
      isPageHtmlEffectivelyEmpty p = false
  | [], p, rest, hf, _ => by simp [blankPageFilter] at hf
  | [q], p, rest, hf, hne => by
      rw [blankPageFilter] at hf
      cases hf
      exact absurd rfl hne
  | q1 :: q2 :: t, p, rest, hf, hne => by
      rw [blankPageFilter] at hf
      split_ifs at hf with he
      · exact blankPageFilter_head_not_empty (q2 :: t) p rest hf hne
      · cases hf
        simpa using he

/-- C4: the blank-page filter drops the first page exactly while more
than one page remains and the first page is effectively empty; it never
empties a non-empty sequence (so the sole remaining page survives); after
filtering, a sequence of two or more pages never starts with an
effectively empty page; and packing an input consisting only of
effectively-empty blocks and break markers renders exactly one synthetic
empty page. -/
theorem C4_blank_page_filter (measure : List HNode → Nat) (maxB : Nat) :
    (∀ p q rest, isPageHtmlEffectivelyEmpty p = true →
      blankPageFilter (p :: q :: rest) = blankPageFilter (q :: rest)) ∧
    (∀ p q rest, isPageHtmlEffectivelyEmpty p = false →
      blankPageFilter (p :: q :: rest) = p :: q :: rest) ∧
    (∀ p, blankPageFilter [p] = [p]) ∧
    (∀ l, l ≠ [] → blankPageFilter l ≠ []) ∧
    (∀ l p rest, blankPageFilter l = p :: rest → rest ≠ [] →
      isPageHtmlEffectivelyEmpty p = false) ∧
    (∀ blocks,
      (∀ b ∈ blocks, isEffectivelyEmptyBlock b = true ∨ isPageBreak b = true) →
      paginateContent measure maxB blocks = [⟨"Page 1", []⟩]) := by
  refine ⟨?_, ?_, fun p => rfl, blankPageFilter_ne_nil,
    blankPageFilter_head_not_empty, ?_⟩
  · intro p q rest he
    rw [blankPageFilter, if_pos he]
  · intro p q rest he
    rw [blankPageFilter, if_neg (by simp [he])]
  · intro blocks hall
    unfold paginateContent
    rw [pack_all_empty measure maxB blocks hall]
    rfl

/-- Witness for C4: on concrete data — an image page is dropped in front
of a text page, a single page survives untouched, and a whitespace-only
document (a br-only paragraph plus a break marker) renders as one
synthetic page. -/
theorem C4_blank_page_filter_witness :
    (isPageHtmlEffectivelyEmpty [blkPImg] = true ∧
      blankPageFilter [[blkPImg], [blkB]] = blankPageFilter [[blkB]]) ∧
    blankPageFilter [[blkPImg]] = [[blkPImg]] ∧
    ((∀ b ∈ ([.elem "p" [] "" [.elem "br" [] "" []], blkBreak] : List HNode),
        isEffectivelyEmptyBlock b = true ∨ isPageBreak b = true) ∧
      paginateContent (sumMeasure heightsImg) 10
        [.elem "p" [] "" [.elem "br" [] "" []], blkBreak] = [⟨"Page 1", []⟩]) :=
  ⟨⟨by decide,
      (C4_blank_page_filter (sumMeasure heightsImg) 10).1 [blkPImg] [blkB] []
        (by decide)⟩,
    (C4_blank_page_filter (sumMeasure heightsImg) 10).2.2.1 [blkPImg],
    ⟨by decide,
      (C4_blank_page_filter (sumMeasure heightsImg) 10).2.2.2.2.2
        [.elem "p" [] "" [.elem "br" [] "" []], blkBreak] (by decide)⟩⟩

/-! ### Claim C1 -/

mutual
/-- DOM well-formedness used by the conservation statement: `<br>`
elements carry no children.  Every tree produced by an HTML parse
satisfies this (`br` is a void element); it matters because
`trimLeadingBrOnPageStart` removes a leading `<br>` together with its
subtree. -/
def brVoid : HNode → Bool
  | .text _ => true
  | .elem t _ _ cs => (if t == "br" then cs.isEmpty else true) && brVoidList cs
/-- `brVoid` over a node list. -/
def brVoidList : List HNode → Bool
  | [] => true
  | c :: cs => brVoid c && brVoidList cs
end

theorem wsTextList_singleton (b : HNode) :
    wsTextList [b] = stripWs (HNode.textContent b) := by
  show stripWs (HNode.textContent b ++ HNode.textContentList []) = _
  rw [show HNode.textContentList [] = "" from rfl, String.append_empty]

theorem wsTextList_cons (b : HNode) (l : List HNode) :
    wsTextList (b :: l) = stripWs (HNode.textContent b) ++ wsTextList l := by
  show stripWs (HNode.textContent b ++ HNode.textContentList l) = _
  rw [stripWs_append]; rfl

theorem flushPage_wsText (pages : List (List HNode)) (buf : List HNode) :
    wsTextPages (flushPage pages buf) = wsTextPages pages ++ wsTextList buf := by
  unfold flushPage
  split_ifs with hbe
  · have : buf = [] := List.isEmpty_iff.mp hbe
    subst this
    rw [show wsTextList [] = "" from rfl, String.append_empty]
  · rw [wsTextPages_append]
    show _ = _ ++ wsTextList buf
    rw [show wsTextPages [buf] = wsTextList buf ++ wsTextPages [] from rfl]
    rw [show wsTextPages ([] : List (List HNode)) = "" from rfl, String.append_empty]

/-- An effectively empty block has no visible text. -/
theorem emptyBlock_wsText {c : HNode} (h : isEffectivelyEmptyBlock c = true) :
    stripWs (HNode.textContent c) = "" := by
  cases c with
  | text s => simpa [isEffectivelyEmptyBlock, HNode.textContent] using h
  | elem t cl id cs =>
      rw [isEffectivelyEmptyBlock] at h
      rcases Bool.and_eq_true .. |>.mp h with ⟨_, htext⟩
      simpa [HNode.textContent] using htext

theorem brVoidList_decompose {c : HNode} {cs : List HNode}
    (h : brVoidList (c :: cs) = true) :
    brVoid c = true ∧ brVoidList cs = true := by
  rw [brVoidList] at h
  exact Bool.and_eq_true .. |>.mp h

/-- Dropping a leading run of void `<br>` elements and whitespace-only
text nodes does not change the whitespace-stripped text. -/
theorem dropWhile_wsText (cs : List HNode) (hv : brVoidList cs = true) :
    stripWs (HNode.textContentList
      (cs.dropWhile (fun c => isBrElem c || isWsText c))) =
    stripWs (HNode.textContentList cs) := by
  induction cs with
  | nil => rfl
  | cons c cs ih =>
      obtain ⟨hvc, hvcs⟩ := brVoidList_decompose hv
      rw [List.dropWhile_cons]
      split_ifs with hq
      · rw [ih hvcs, textContentList_cons, stripWs_append]
        have hc : stripWs (HNode.textContent c) = "" := by
          rcases Bool.or_eq_true .. |>.mp hq with hbr | hws
          · cases c with
            | text s => exact Bool.noConfusion hbr
            | elem t cl id cs2 =>
                have ht : t = "br" := by simpa [isBrElem] using hbr
                rw [brVoid, ht] at hvc
                rcases Bool.and_eq_true .. |>.mp hvc with ⟨hbempty, _⟩
                have : cs2 = [] := List.isEmpty_iff.mp (by simpa using hbempty)
                subst this
                rfl
          · cases c with
            | text s => simpa [isWsText, HNode.textContent] using hws
            | elem t cl id cs2 => exact Bool.noConfusion hws
        rw [hc, String.empty_append]
      · rfl

/-- Trimming preserves the whitespace-stripped text of a well-formed
block. -/
theorem trim_wsText {b : HNode} (hv : brVoid b = true) :
    stripWs (HNode.textContent (trimLeadingBrOnPageStart b)) =
      stripWs (HNode.textContent b) := by
  cases b with
  | text s => rfl
  | elem t cl id cs =>
      simp only [trimLeadingBrOnPageStart]
      split_ifs with h1 h2
      · rfl
      · rfl
      · rw [brVoid] at hv
        rcases Bool.and_eq_true .. |>.mp hv with ⟨_, hvl⟩
        exact dropWhile_wsText cs hvl

theorem firstOnPageClone_wsText (buf : List HNode) {b : HNode}
    (hv : brVoid b = true) :
    stripWs (HNode.textContent (firstOnPageClone buf b)) =
      stripWs (HNode.textContent b) := by
  unfold firstOnPageClone
  split_ifs with h
  · exact trim_wsText hv
  · rfl

theorem brVoidList_take_drop (k : Nat) :
    ∀ cs : List HNode, brVoidList cs = true →
      brVoidList (cs.take k) = true ∧ brVoidList (cs.drop k) = true := by
  induction k with
  | zero => intro cs h; exact ⟨rfl, h⟩
  | succ k ih =>
      intro cs h
      cases cs with
      | nil => exact ⟨rfl, rfl⟩
      | cons c cs2 =>
          obtain ⟨hc, hcs⟩ := brVoidList_decompose h
          obtain ⟨h1, h2⟩ := ih cs2 hcs
          constructor
          · rw [List.take_succ_cons, brVoidList, hc, h1]; rfl
          · simpa using h2

/-- The parts of a successful split of a well-formed block are
well-formed. -/
theorem split_parts_brVoid {b : HNode} {parts : List HNode}
    (hv : brVoid b = true) (h : splitElementBeforeFirstImage b = some parts) :
    ∀ x ∈ parts, brVoid x = true := by
  obtain ⟨t, cl, id, cs, hel, hAny, _, hparts⟩ := split_parts_shape h
  subst hel hparts
  rw [brVoid] at hv
  rcases Bool.and_eq_true .. |>.mp hv with ⟨hbr, hvl⟩
  have htne : (t == "br") = false := by
    by_cases ht : t = "br"
    · subst ht
      simp only [beq_self_eq_true, if_true] at hbr
      have : cs = [] := List.isEmpty_iff.mp hbr
      subst this
      simp at hAny
    · simpa using ht
  obtain ⟨h1, h2⟩ := brVoidList_take_drop (cs.findIdx containsImg) cs hvl
  intro x hx
  simp only [List.mem_cons, List.not_mem_nil, or_false] at hx
  rcases hx with rfl | rfl
  · rw [beforePart, brVoid, htne]
    simpa using h1
  · rw [afterPart, brVoid, htne]
    simpa using h2

theorem wsTextPages_blankPageFilter :
    ∀ l : List (List HNode), wsTextPages (blankPageFilter l) = wsTextPages l
  | [] => rfl
  | [p] => rfl
  | p :: q :: rest => by
      rw [blankPageFilter]
      split_ifs with he
      · rw [wsTextPages_blankPageFilter (q :: rest)]
        have hp : wsTextList p = "" := by
          simpa [isPageHtmlEffectivelyEmpty, wsTextList] using he
        show _ = wsTextList p ++ _
        rw [hp, String.empty_append]
      · rfl

/-- The conservation invariant of the packing loop: the text already
emitted, buffered and still to come always adds up to the input's text,
and the remaining input is break-free and well-formed. -/
theorem packStep_conservation (measure : List HNode → Nat) (maxB : Nat)
    (T : String) :
    ∀ b rest buf pages,
      (wsTextPages pages ++ wsTextList buf ++ wsTextList (b :: rest) = T ∧
        ∀ x ∈ b :: rest, isPageBreak x = false ∧ brVoid x = true) →
      (wsTextPages (packStep measure maxB b rest buf pages).pages ++
          wsTextList (packStep measure maxB b rest buf pages).buf ++
          wsTextList (packStep measure maxB b rest buf pages).rem = T ∧
        ∀ x ∈ (packStep measure maxB b rest buf pages).rem,
          isPageBreak x = false ∧ brVoid x = true) := by
  intro b rest buf pages ⟨heq, hrem⟩
  have hbv : brVoid b = true := (hrem b (List.mem_cons_self b rest)).2
  have hbnb : isPageBreak b = false := (hrem b (List.mem_cons_self b rest)).1
  have hrest : ∀ x ∈ rest, isPageBreak x = false ∧ brVoid x = true :=
    fun x hx => hrem x (List.mem_cons_of_mem b hx)
  rw [wsTextList_cons] at heq
  rcases packStep_cases measure maxB b rest buf pages with
      ⟨hb, hs⟩ | ⟨_, hbe, hcl, hs⟩ | ⟨_, _, _, _, hs⟩ | ⟨_, _, _, _, _, hs⟩ |
      ⟨_, _, _, _, _, hs⟩ | ⟨_, _, _, _, _, hs⟩ | ⟨_, _, _, hbe, parts, h7, hs⟩ |
      ⟨_, _, _, hbe, _, hs⟩ | ⟨_, _, _, hne, hLast, hL, _, hs⟩ |
      ⟨_, _, _, hne, _, hs⟩ <;>
    rw [hs] <;> dsimp only
  · rw [hbnb] at hb; exact Bool.noConfusion hb
  · -- skip: the block has no visible text
    refine ⟨?_, hrest⟩
    have h0 : stripWs (HNode.textContent b) = "" := by
      rw [← firstOnPageClone_wsText buf hbv]
      exact emptyBlock_wsText hcl
    rw [← heq, h0, String.empty_append]
  · -- fit at end of input
    refine ⟨?_, hrest⟩
    rw [← heq, wsTextList_append, wsTextList_singleton,
      firstOnPageClone_wsText _ hbv]
    simp [String.append_assoc]
  · refine ⟨?_, hrest⟩
    rw [← heq, wsTextList_append, wsTextList_singleton,
      firstOnPageClone_wsText _ hbv]
    simp [String.append_assoc]
  · refine ⟨?_, hrest⟩
    rw [← heq, wsTextList_append, wsTextList_singleton,
      firstOnPageClone_wsText _ hbv]
    simp [String.append_assoc]
  · -- heading eviction on the probe
    refine ⟨?_, hrest⟩
    rw [← heq, flushPage_wsText, wsTextList_singleton]
    simp [String.append_assoc]
  · -- split and retry
    refine ⟨?_, ?_⟩
    · rw [← heq, wsTextList_append]
      have : wsTextList parts = stripWs (HNode.textContent b) := by
        show stripWs (HNode.textContentList parts) = _
        rw [split_textContent h7]
      rw [this]
    · intro x hx
      rcases List.mem_append.mp hx with hx | hx
      · exact ⟨(split_parts_classes h7 x hx).trans hbnb,
          split_parts_brVoid hbv h7 x hx⟩
      · exact hrest x hx
  · -- oversized fallback
    refine ⟨?_, hrest⟩
    rw [← heq, wsTextList_append, wsTextList_singleton,
      firstOnPageClone_wsText _ hbv]
    simp [String.append_assoc]
  · -- move to next page, taking the trailing heading along
    refine ⟨?_, hrest⟩
    have hbufeq : buf.dropLast ++ [hLast] = buf :=
      List.dropLast_append_getLast? hLast hL
    rw [← heq, flushPage_wsText, ← hbufeq, wsTextList_append,
      wsTextList_cons, wsTextList_singleton, wsTextList_singleton]
    simp [String.append_assoc]
  · -- move to next page
    refine ⟨?_, hrest⟩
    rw [← heq, flushPage_wsText, wsTextList_singleton]
    simp [String.append_assoc]

/-- C1 (amended): for a break-free, well-formed input, the concatenated
whitespace-stripped text of the filtered output pages equals that of the
input: no visible text is dropped, duplicated or reordered by the packer,
the splitter, the trimming or the blank-page filter.  (Blocks without
visible text — such as an image-only block on a leading visually blank
page — may be dropped by the filter; see the counterexample.) -/
theorem C1_conservation_amended (measure : List HNode → Nat) (maxB : Nat)
    (blocks : List HNode)
    (hnb : ∀ b ∈ blocks, isPageBreak b = false)
    (hv : ∀ b ∈ blocks, brVoid b = true) :
    wsTextPages (blankPageFilter (paginatePages measure maxB blocks)) =
      wsTextList blocks := by
  rw [wsTextPages_blankPageFilter]
  refine packGo_invariant measure maxB
    (fun rem buf pages =>
      wsTextPages pages ++ wsTextList buf ++ wsTextList rem = wsTextList blocks ∧
        ∀ x ∈ rem, isPageBreak x = false ∧ brVoid x = true)
    (fun result => wsTextPages result = wsTextList blocks)
    ?_ ?_ (weightList blocks) blocks [] [] le_rfl
    ⟨by simp [wsTextPages, wsTextList, HNode.textContentList, stripWs_empty,
        String.empty_append],
      fun x hx => ⟨hnb x hx, hv x hx⟩⟩
  · exact packStep_conservation measure maxB (wsTextList blocks)
  · rintro buf pages ⟨heq, _⟩
    rw [← heq, flushPage_wsText]
    rw [show wsTextList ([] : List HNode) = "" from rfl, String.append_empty]

/-- Counterexample to C1 as stated: a leading page holding only an
image-bearing block — a block that is not effectively empty — is removed
by the blank-page filter, so that block is dropped from the output. -/
theorem C1_conservation_counterexample :
    paginatePages (sumMeasure heightsImg) 10 [blkPImg, blkB] =
      [[blkPImg], [blkB]] ∧
    blankPageFilter (paginatePages (sumMeasure heightsImg) 10 [blkPImg, blkB]) =
      [[blkB]] ∧
    isEffectivelyEmptyBlock blkPImg = false ∧
    blkPImg ∉ [blkB] := by decide

/-- Witness for C1 (amended): on a concrete break-free two-block
document the filtered output's text equals the input's text. -/
theorem C1_conservation_amended_witness :
    ((∀ b ∈ ([blkA, blkB] : List HNode), isPageBreak b = false) ∧
      (∀ b ∈ ([blkA, blkB] : List HNode), brVoid b = true)) ∧
    wsTextPages (blankPageFilter
        (paginatePages (sumMeasure heightsImg) 10 [blkA, blkB])) =
      wsTextList [blkA, blkB] :=
  ⟨⟨by decide, by decide⟩,
    C1_conservation_amended (sumMeasure heightsImg) 10 [blkA, blkB]
      (by decide) (by decide)⟩

/-! ### Claim C3 -/

/-- A page's last block is a heading. -/
def endsWithHeading (p : List HNode) : Prop :=
  ∃ x, p.getLast? = some x ∧ isHeading x = true

/-- A page's first block is a heading. -/
def startsWithHeading (p : List HNode) : Prop :=
  ∃ x, p.head? = some x ∧ isHeading x = true

/-- The adjacency relation of the amended orphan property: a page that
ends in a heading is followed by a page that starts with a heading (the
evicted one). -/
def headingChain (p q : List HNode) : Prop :=
  endsWithHeading p → startsWithHeading q

theorem startsWithHeading_append {buf : List HNode} (l : List HNode)
    (h : startsWithHeading buf) : startsWithHeading (buf ++ l) := by
  obtain ⟨x, hx, hh⟩ := h
  cases buf with
  | nil => simp at hx
  | cons y t =>
      rw [List.head?_cons] at hx
      cases hx
      exact ⟨x, rfl, hh⟩

theorem chain'_flushPage {pages : List (List HNode)} {buf : List HNode}
    (hc : List.Chain' headingChain pages)
    (hb : ∀ lastp, pages.getLast? = some lastp → headingChain lastp buf) :
    List.Chain' headingChain (flushPage pages buf) := by
  unfold flushPage
  split_ifs with hbe
  · exact hc
  · rw [List.chain'_append]
    refine ⟨hc, List.chain'_singleton buf, ?_⟩
    intro x hx y hy
    rw [List.head?_cons] at hy
    cases hy
    exact hb x hx

theorem getLast?_flushPage_cases {pages : List (List HNode)}
    {buf : List HNode} {lastp : List HNode}
    (h : (flushPage pages buf).getLast? = some lastp) :
    (buf = [] ∧ pages.getLast? = some lastp) ∨ (buf ≠ [] ∧ lastp = buf) := by
  unfold flushPage at h
  split_ifs at h with hbe
  · exact Or.inl ⟨List.isEmpty_iff.mp hbe, h⟩
  · rw [List.getLast?_concat] at h
    cases h
    exact Or.inr ⟨by simpa using hbe, rfl⟩

/-- The invariant step for the amended heading-orphan property. -/
theorem packStep_headingChain (measure : List HNode → Nat) (maxB : Nat) :
    ∀ b rest buf pages,
      (List.Chain' headingChain pages ∧
        (∀ lastp, pages.getLast? = some lastp →
          endsWithHeading lastp → startsWithHeading buf) ∧
        ∀ x ∈ b :: rest, isPageBreak x = false) →
      (List.Chain' headingChain (packStep measure maxB b rest buf pages).pages ∧
        (∀ lastp, (packStep measure maxB b rest buf pages).pages.getLast? =
            some lastp → endsWithHeading lastp →
          startsWithHeading (packStep measure maxB b rest buf pages).buf) ∧
        ∀ x ∈ (packStep measure maxB b rest buf pages).rem, isPageBreak x = false) := by
  intro b rest buf pages ⟨hc, hbd, hrem⟩
  have hbnb : isPageBreak b = false := hrem b (List.mem_cons_self b rest)
  have hrest : ∀ x ∈ rest, isPageBreak x = false :=
    fun x hx => hrem x (List.mem_cons_of_mem b hx)
  rcases packStep_cases measure maxB b rest buf pages with
      ⟨hb, hs⟩ | ⟨_, _, _, hs⟩ | ⟨_, _, _, _, hs⟩ | ⟨_, _, _, _, _, hs⟩ |
      ⟨_, _, _, _, h4, hs⟩ | ⟨_, _, _, _, h4, hs⟩ | ⟨_, _, _, hbe, parts, h7, hs⟩ |
      ⟨_, _, _, hbe, _, hs⟩ | ⟨_, _, _, hne, hLast, hL, hHead, hs⟩ |
      ⟨_, _, _, hne, hLastx, hs⟩ <;>
    rw [hs] <;> dsimp only
  · rw [hbnb] at hb; exact Bool.noConfusion hb
  · exact ⟨hc, hbd, hrest⟩
  · exact ⟨hc, fun lastp hl he =>
      startsWithHeading_append _ (hbd lastp hl he), hrest⟩
  · exact ⟨hc, fun lastp hl he =>
      startsWithHeading_append _ (hbd lastp hl he), hrest⟩
  · exact ⟨hc, fun lastp hl he =>
      startsWithHeading_append _ (hbd lastp hl he), hrest⟩
  · -- heading evicted to its own page
    refine ⟨chain'_flushPage hc hbd, ?_, hrest⟩
    intro lastp _ _
    exact ⟨b, rfl, h4⟩
  · exact ⟨hc, hbd, fun x hx => by
      rcases List.mem_append.mp hx with hx | hx
      · exact (split_parts_classes h7 x hx).trans hbnb
      · exact hrest x hx⟩
  · -- oversized fallback on an empty buffer
    subst hbe
    refine ⟨hc, ?_, hrest⟩
    intro lastp hl he
    exact absurd (hbd lastp hl he) (by rintro ⟨x, hx, _⟩; simp at hx)
  · -- heading moved with its follower
    refine ⟨?_, ?_, hrest⟩
    · cases hd : buf.dropLast with
      | nil =>
          rw [flushPage_empty]
          exact hc
      | cons y t =>
          refine chain'_flushPage hc ?_
          intro lastp hl he
          have hbufeq : buf.dropLast ++ [hLast] = buf :=
            List.dropLast_append_getLast? hLast hL
          obtain ⟨x, hx, hh⟩ := hbd lastp hl he
          rw [← hbufeq, hd, List.cons_append, List.head?_cons] at hx
          cases hx
          exact ⟨y, rfl, hh⟩
    · intro lastp _ _
      exact ⟨hLast, rfl, hHead⟩
  · -- ordinary move to the next page
    refine ⟨chain'_flushPage hc hbd, ?_, hrest⟩
    intro lastp hl he
    rcases getLast?_flushPage_cases hl with ⟨hbempty, hl2⟩ | ⟨_, rfl⟩
    · exact absurd (hbd lastp hl2 he) (by
        subst hbempty
        rintro ⟨x, hx, _⟩; simp at hx)
    · obtain ⟨hLast2, hL2, hHead2⟩ := hLastx
      obtain ⟨x, hx, hh⟩ := he
      rw [hL2] at hx
      cases hx
      rw [hHead2] at hh
      exact Bool.noConfusion hh

theorem chain'_blankPageFilter :
    ∀ l : List (List HNode), List.Chain' headingChain l →
      List.Chain' headingChain (blankPageFilter l)
  | [], h => h
  | [p], h => h
  | p :: q :: rest, h => by
      rw [blankPageFilter]
      split_ifs with he
      · exact chain'_blankPageFilter (q :: rest) h.tail
      · exact h

/-- C3 (amended): for a break-free input, a page that ends in a heading
and has a following page is always followed by a page that starts with a
heading.  Consequently a heading with a non-heading immediate follower is
never stranded at the end of a page: the original claim fails only when
the immediate follower is itself a heading (the one-block lookahead
protects the innermost heading of a run, evicting it and leaving the
previous heading behind). -/
theorem C3_heading_non_orphan_corrected (measure : List HNode → Nat)
    (maxB : Nat) (blocks : List HNode)
    (hnb : ∀ x ∈ blocks, isPageBreak x = false) :
    List.Chain' headingChain
      (blankPageFilter (paginatePages measure maxB blocks)) := by
  refine chain'_blankPageFilter _ ?_
  refine packGo_invariant measure maxB
    (fun rem buf pages =>
      List.Chain' headingChain pages ∧
        (∀ lastp, pages.getLast? = some lastp →
          endsWithHeading lastp → startsWithHeading buf) ∧
        ∀ x ∈ rem, isPageBreak x = false)
    (List.Chain' headingChain)
    (packStep_headingChain measure maxB)
    ?_ (weightList blocks) blocks [] [] le_rfl
    ⟨List.chain'_nil, fun lastp hl => by simp at hl, hnb⟩
  rintro buf pages ⟨hc, hbd, _⟩
  exact chain'_flushPage hc hbd

/-- Counterexample to C3 as stated: a heading immediately followed by
another heading, with the pair fitting together on an empty page, is
still separated — the lookahead protects only the second heading, which
is evicted to the next page while the first stays behind as the trailing
block of its page. -/
theorem C3_heading_non_orphan_counterexample :
    paginatePages (sumMeasure heightsOrphan) 10
        [blkA, blkHead, blkHead2, blkBig] =
      [[blkA, blkHead], [blkHead2, blkBig]] ∧
    isHeading blkHead = true ∧
    isPageBreak blkHead2 = false ∧
    sumMeasure heightsOrphan [blkHead, blkHead2] ≤ 10 ∧
    blkHead ≠ blkHead2 := by decide

/-- Witness for C3 (amended): the chain property holds on a concrete
break-free run whose first page ends in a heading. -/
theorem C3_heading_non_orphan_corrected_witness :
    (∀ x ∈ ([blkA, blkHead, blkHead2, blkBig] : List HNode),
      isPageBreak x = false) ∧
    List.Chain' headingChain
      (blankPageFilter (paginatePages (sumMeasure heightsOrphan) 10
        [blkA, blkHead, blkHead2, blkBig])) :=
  ⟨by decide,
    C3_heading_non_orphan_corrected (sumMeasure heightsOrphan) 10
      [blkA, blkHead, blkHead2, blkBig] (by decide)⟩

/-! ### Claim C10: the second `paginateContent` variant

`src/script.js` contains two complete `paginateContent` implementations:
one at lines 1189-1488 (embedded above) and one at lines 3125-3409.  The
helper closures defined inside the second variant
(`isEffectivelyEmptyBlock`, `trimLeadingBrOnPageStart`,
`splitElementBeforeFirstImage`, `isHeading`, `getUsedHeightPx`,
`isPageHtmlEffectivelyEmpty`) are character-for-character identical to
the first variant's, so the embedding shares their definitions; the loop
body, blank-page guard and renderer are embedded again below from the
second variant's text and proved equal.  The first variant additionally
defines an unused `getHeadingAnchor` helper (script.js:1301-1310) and
ends by calling `updateTOCPageNumbers()` (script.js:1486-1487); the
second does neither. -/

/-- One iteration of the second variant's packing loop
(script.js:3248-3371). -/
def packStepV2 (measure : List HNode → Nat) (maxB : Nat) (b : HNode)
    (rest buf : List HNode) (pages : List (List HNode)) : PackState :=
  if isPageBreak b then
    -- script.js:3253-3261: flush if non-empty, reset, skip the marker.
    ⟨rest, [], flushPage pages buf⟩
  else if buf.isEmpty && isEffectivelyEmptyBlock (firstOnPageClone buf b) then
    -- script.js:3266-3271: an empty block cannot start a page.
    ⟨rest, buf, pages⟩
  else if measure (buf ++ [firstOnPageClone buf b]) ≤ maxB then
    -- script.js:3276-3310: the block fits.
    match rest with
    | [] => ⟨rest, buf ++ [firstOnPageClone buf b], pages⟩
    | next :: _ =>
      if isHeading b then
        if measure (buf ++ [firstOnPageClone buf b] ++ [next]) ≤ maxB then
          -- script.js:3305-3308: probe fits; retract it and continue.
          ⟨rest, buf ++ [firstOnPageClone buf b], pages⟩
        else
          -- script.js:3289-3304: evict the heading to a new page.
          ⟨rest, [b], flushPage pages buf⟩
      else ⟨rest, buf ++ [firstOnPageClone buf b], pages⟩
  else if buf.isEmpty then
    -- script.js:3315-3328: first element of a page overflowed.
    match splitElementBeforeFirstImage b with
    | some parts => ⟨parts ++ rest, buf, pages⟩
    | none => ⟨rest, buf ++ [firstOnPageClone buf b], pages⟩
  else
    -- script.js:3332-3344: retract, then the second split attempt guarded
    -- by `currentPageHTML.length === 0`.
    match (if buf.isEmpty then splitElementBeforeFirstImage b else none) with
    | some parts => ⟨parts ++ rest, buf, pages⟩
    | none =>
      -- script.js:3346-3370: move the block to the next page, taking a
      -- trailing heading along with it.
      match buf.getLast? with
      | some hLast =>
        if isHeading hLast then
          ⟨rest, [hLast, b], flushPage pages buf.dropLast⟩
        else ⟨rest, [b], flushPage pages buf⟩
      | none => ⟨rest, [b], flushPage pages buf⟩

/-- The second variant's packing loop (script.js:3248-3373) as the same
fuel-indexed recursion. -/
def packGoV2 (measure : List HNode → Nat) (maxB : Nat) :
    Nat → List HNode → List HNode → List (List HNode) → List (List HNode)
  | 0, _, buf, pages => flushPage pages buf
  | _ + 1, [], buf, pages => flushPage pages buf
  | fuel + 1, b :: rest, buf, pages =>
    match packStepV2 measure maxB b rest buf pages with
    | ⟨rem2, buf2, pages2⟩ => packGoV2 measure maxB fuel rem2 buf2 pages2

/-- The second variant's blank-page guard (script.js:3389-3392). -/
def blankPageFilterV2 : List (List HNode) → List (List HNode)
  | [] => []
  | [p] => [p]
  | p :: q :: rest =>
      if isPageHtmlEffectivelyEmpty p then blankPageFilterV2 (q :: rest)
      else p :: q :: rest

/-- The second variant's rendering step (script.js:3396-3408). -/
def renderPagesV2 (pages : List (List HNode)) : List RenderedPage :=
  if pages.isEmpty then [⟨"Page 1", []⟩]
  else pages.enum.map (fun pi => ⟨"Page " ++ toString (pi.1 + 1), pi.2⟩)

/-- The second variant's full pipeline (script.js:3125-3409): it renders
the pages and stops, with no TOC update. -/
def paginateContentV2 (measure : List HNode → Nat) (maxB : Nat)
    (blocks : List HNode) : List RenderedPage :=
  renderPagesV2 (blankPageFilterV2
    (packGoV2 measure maxB (weightList blocks) blocks [] []))

/-- The first variant's full behaviour (script.js:1189-1488): render the
pages, then update the TOC entries against the rendered pages
(script.js:1486-1487). -/
def paginateContentWithTOC (measure : List HNode → Nat) (maxB : Nat)
    (blocks : List HNode) (entries : List TocEntry) :
    List RenderedPage × List TocEntry :=
  (paginateContent measure maxB blocks,
    updateTOCPageNumbers entries (paginateContent measure maxB blocks))

theorem packStepV2_eq (measure : List HNode → Nat) (maxB : Nat) (b : HNode)
    (rest buf : List HNode) (pages : List (List HNode)) :
    packStepV2 measure maxB b rest buf pages =
      packStep measure maxB b rest buf pages := rfl

theorem packGoV2_eq (measure : List HNode → Nat) (maxB : Nat) :
    ∀ (fuel : Nat) (rem buf : List HNode) (pages : List (List HNode)),
      packGoV2 measure maxB fuel rem buf pages =
        packGo measure maxB fuel rem buf pages
  | 0, _, _, _ => rfl
  | _ + 1, [], _, _ => rfl
  | fuel + 1, b :: rest, buf, pages => by
      rcases hps : packStep measure maxB b rest buf pages with ⟨rem2, buf2, pages2⟩
      simp only [packGoV2, packGo, packStepV2_eq, hps]
      exact packGoV2_eq measure maxB fuel rem2 buf2 pages2

theorem blankPageFilterV2_eq :
    ∀ l : List (List HNode), blankPageFilterV2 l = blankPageFilter l
  | [] => rfl
  | [_] => rfl
  | p :: q :: rest => by
      rw [blankPageFilterV2, blankPageFilter]
      split_ifs with he
      · exact blankPageFilterV2_eq (q :: rest)
      · rfl

theorem renderPagesV2_eq (pages : List (List HNode)) :
    renderPagesV2 pages = renderPages pages := rfl

/-- C10: the two `paginateContent` implementations in the source compute
identical page sequences — same pages, same blocks per page, same
`data-page` labels — for every input and oracle; the first variant
differs only in additionally running the TOC page-number update on the
rendered result. -/
theorem C10_variant_equivalence (measure : List HNode → Nat) (maxB : Nat)
    (blocks : List HNode) (entries : List TocEntry) :
    paginateContentV2 measure maxB blocks = paginateContent measure maxB blocks ∧
    paginateContentWithTOC measure maxB blocks entries =
      (paginateContentV2 measure maxB blocks,
        updateTOCPageNumbers entries (paginateContentV2 measure maxB blocks)) := by
  have h1 : paginateContentV2 measure maxB blocks =
      paginateContent measure maxB blocks := by
    unfold paginateContentV2 paginateContent paginatePages
    rw [packGoV2_eq, blankPageFilterV2_eq, renderPagesV2_eq]
  exact ⟨h1, by rw [paginateContentWithTOC, h1]⟩

end MdToPdf
